import Mathlib

/-
Verification of the sharded-write engine of `logsplitter2` against its
natural-language specification.

The Rust sources are shallowly embedded:
* `src/math_utils.rs`   → `get_even_partition`
* `src/file_pool.rs`    → `FilePool` (state + `take`/`give`/`finish`/`close_file`),
                          `FilePoolEntry.write_all`
* `src/output.rs`       → `OutputFiles` (router state + `write_line`), engine capacity
* `src/data.rs`         → `MsgKey`, `LineData.parse` (JSON parsing is an external
                          crate; its result is passed in as a `Json` value),
                          a model of chrono's `parse_from_rfc3339`/`date_naive`
* `src/input.rs`        → `read_input` line splitting over the decompressed bytes

Hash maps / hash sets keyed by `MsgKey` are modelled as association lists with
no duplicate keys (the well-formedness predicate `FilePool.WF` records this).
`MsgKey` equality is by its `name` string (its cached xxh3 hash does not enter
`PartialEq`), so pool and router keys are modelled as `String`.
Panics (`assert!`, `expect`, `unwrap`) are modelled as `Option.none` results.
File-system effects are recorded as explicit `FileAction` traces.
-/

namespace LogSplitter

abbrev Key := String

/-! ### Association-list helpers (model of `HashMap`/`HashSet` with `MsgKey` keys) -/

/-- Lookup of the first entry with the given key. -/
def alookup {α : Type} : List (Key × α) → Key → Option α
  | [], _ => none
  | (k', v) :: t, k => if k' = k then some v else alookup t k

/-- Removal of the first entry with the given key (model of `HashMap::remove`). -/
def aerase {α : Type} : List (Key × α) → Key → List (Key × α)
  | [], _ => []
  | (k', v) :: t, k => if k' = k then t else (k', v) :: aerase t k

/-- The keys of an association list, in order. -/
def keys {α : Type} (l : List (Key × α)) : List Key :=
  l.map Prod.fst

theorem keys_nil {α : Type} : keys ([] : List (Key × α)) = [] := rfl

theorem keys_cons {α : Type} (p : Key × α) (l : List (Key × α)) :
    keys (p :: l) = p.1 :: keys l := rfl

theorem keys_append {α : Type} (l₁ l₂ : List (Key × α)) :
    keys (l₁ ++ l₂) = keys l₁ ++ keys l₂ := by
  simp [keys]

theorem length_keys {α : Type} (l : List (Key × α)) : (keys l).length = l.length := by
  simp [keys]

theorem alookup_eq_none {α : Type} (l : List (Key × α)) (k : Key) :
    alookup l k = none ↔ k ∉ keys l := by
  induction l with
  | nil => simp [alookup, keys]
  | cons p t ih =>
    obtain ⟨k', v⟩ := p
    simp only [alookup, keys_cons, List.mem_cons]
    by_cases h : k' = k
    · subst h
      simp
    · simp [h, ih, Ne.symm h]

theorem alookup_isSome {α : Type} (l : List (Key × α)) (k : Key) :
    (alookup l k).isSome ↔ k ∈ keys l := by
  rw [Option.isSome_iff_ne_none]
  constructor
  · intro h
    by_contra hk
    exact h ((alookup_eq_none l k).mpr hk)
  · intro h hn
    exact (alookup_eq_none l k).mp hn h

theorem mem_keys_of_alookup {α : Type} {l : List (Key × α)} {k : Key} {v : α}
    (h : alookup l k = some v) : k ∈ keys l := by
  rw [← alookup_isSome, h]
  rfl

theorem keys_aerase {α : Type} (l : List (Key × α)) (k : Key) :
    keys (aerase l k) = (keys l).erase k := by
  induction l with
  | nil => simp [aerase, keys]
  | cons p t ih =>
    obtain ⟨k', v⟩ := p
    by_cases h : k' = k
    · subst h
      simp [aerase, keys_cons, List.erase_cons_head]
    · simp [aerase, h, keys_cons, ih, List.erase_cons_tail, (by simpa using h : ¬ (k' == k))]

theorem alookup_aerase_ne {α : Type} (l : List (Key × α)) (k k' : Key) (h : k' ≠ k) :
    alookup (aerase l k) k' = alookup l k' := by
  induction l with
  | nil => rfl
  | cons p t ih =>
    obtain ⟨k₀, v⟩ := p
    by_cases h0 : k₀ = k
    · subst h0
      simp [aerase, alookup, Ne.symm h]
    · by_cases h1 : k₀ = k'
      · subst h1
        simp [aerase, h0, alookup]
      · simp [aerase, h0, alookup, h1, ih]

theorem alookup_append_left {α : Type} (l₁ l₂ : List (Key × α)) (k : Key) {v : α}
    (h : alookup l₁ k = some v) : alookup (l₁ ++ l₂) k = some v := by
  induction l₁ with
  | nil => simp [alookup] at h
  | cons p t ih =>
    obtain ⟨k', w⟩ := p
    by_cases hk : k' = k
    · subst hk
      simp [alookup] at h ⊢
      exact h
    · simp [alookup, hk] at h ⊢
      exact ih h

theorem alookup_append_of_not_mem {α : Type} (l₁ l₂ : List (Key × α)) (k : Key)
    (h : k ∉ keys l₁) : alookup (l₁ ++ l₂) k = alookup l₂ k := by
  induction l₁ with
  | nil => rfl
  | cons p t ih =>
    obtain ⟨k', w⟩ := p
    simp [keys_cons] at h
    have hne : k' ≠ k := fun hh => h.1 hh.symm
    simp [alookup, hne, ih h.2]

theorem nodup_snoc {l : List Key} {a : Key} (hl : l.Nodup) (ha : a ∉ l) :
    (l ++ [a]).Nodup := by
  simp [List.nodup_append, hl, ha]

/-! ### `src/math_utils.rs` -/

/-- Model of the loop `for i in 0..k { v[i] += 1 }`: add one to each of the
first `k` elements. -/
def bump : List Nat → Nat → List Nat
  | l, 0 => l
  | [], _ + 1 => []
  | x :: xs, n + 1 => (x + 1) :: bump xs n

/-- Embedding of `math_utils::get_even_partition`: a vector of `buckets` copies
of `sum / buckets`, with the first `sum % buckets` entries incremented.
(For `buckets = 0` the Rust code panics on division by zero; theorems about
this function assume `1 ≤ buckets`.) -/
def get_even_partition (buckets sum : Nat) : List Nat :=
  bump (List.replicate buckets (sum / buckets)) (sum % buckets)

theorem bump_length (l : List Nat) (n : Nat) : (bump l n).length = l.length := by
  induction l generalizing n with
  | nil => cases n <;> rfl
  | cons x xs ih =>
    cases n with
    | zero => rfl
    | succ n => simp [bump, ih]

theorem bump_sum (l : List Nat) (n : Nat) (h : n ≤ l.length) :
    (bump l n).sum = l.sum + n := by
  induction l generalizing n with
  | nil =>
    have hn : n = 0 := by simpa using h
    subst hn
    rfl
  | cons x xs ih =>
    cases n with
    | zero => simp [bump]
    | succ n =>
      simp [bump, List.sum_cons, ih n (by simpa using h)]
      omega

theorem bump_mem (l : List Nat) (n : Nat) {x : Nat} (hx : x ∈ bump l n) :
    ∃ y ∈ l, x = y ∨ x = y + 1 := by
  induction l generalizing n with
  | nil =>
    cases n <;> simp [bump] at hx
  | cons a xs ih =>
    cases n with
    | zero =>
      exact ⟨x, hx, Or.inl rfl⟩
    | succ n =>
      simp [bump] at hx
      rcases hx with h | h
      · exact ⟨a, by simp, Or.inr h⟩
      · obtain ⟨y, hy, hxy⟩ := ih n h
        exact ⟨y, by simp [hy], hxy⟩

theorem get_even_partition_length (b s : Nat) :
    (get_even_partition b s).length = b := by
  simp [get_even_partition, bump_length]

theorem get_even_partition_sum (b s : Nat) (hb : 1 ≤ b) :
    (get_even_partition b s).sum = s := by
  have hmod : s % b ≤ (List.replicate b (s / b)).length := by
    simp
    exact le_of_lt (Nat.mod_lt _ hb)
  rw [get_even_partition, bump_sum _ _ hmod, List.sum_replicate, smul_eq_mul]
  exact Nat.div_add_mod s b

theorem get_even_partition_mem (b s : Nat) {x : Nat}
    (hx : x ∈ get_even_partition b s) : x = s / b ∨ x = s / b + 1 := by
  obtain ⟨y, hy, hxy⟩ := bump_mem _ _ hx
  rw [List.eq_of_mem_replicate hy] at hxy
  exact hxy

theorem get_even_partition_pos (b s : Nat) (hb : 1 ≤ b) (hbs : b ≤ s) {x : Nat}
    (hx : x ∈ get_even_partition b s) : 1 ≤ x := by
  have h1 : 1 ≤ s / b := (Nat.one_le_div_iff hb).mpr hbs
  rcases get_even_partition_mem b s hx with h | h <;> omega

/-! ### `src/file_pool.rs` -/

/-- An open pool file: the append cursor.  The OS handle itself carries no
further observable state; opens/closes are recorded in `FileAction` traces. -/
structure FilePoolEntry where
  cursor : Nat
deriving DecidableEq, Repr

/-- An inactive (descriptor-closed) pool file: the remembered cursor.  The
in-flight `closing_task` join handle is modelled by the `awaitClose` action
emitted when it is awaited. -/
structure FilePoolEntryInactive where
  cursor : Nat
deriving DecidableEq, Repr

/-- File-system effects performed by the pool, in program order. -/
inductive FileAction where
  /-- `close_file`: spawn `sync_all` + `close` of the evicted key's handle. -/
  | syncAndClose (k : Key)
  /-- `closing_task.await`: wait for the key's in-flight close to complete. -/
  | awaitClose (k : Key)
  /-- `OpenOptions::new().write(true).open(path)`: reopen, no truncation. -/
  | openWrite (k : Key)
  /-- `File::create(path)`: create/truncate. -/
  | createTrunc (k : Key)
deriving DecidableEq, Repr

/-- Embedding of `file_pool::FilePool`.  The hash map/set/queue fields are
association lists / a key list, in insertion order. -/
structure FilePool where
  max_open_files : Nat
  root : String
  idle_files_queue : List Key
  idle_files : List (Key × FilePoolEntry)
  taken_files : List Key
  inactive_files : List (Key × FilePoolEntryInactive)
deriving DecidableEq, Repr

namespace FilePool

/-- `FilePool::new`. -/
def new (max_open_files : Nat) (root : String) : FilePool :=
  { max_open_files := max_open_files
    root := root
    idle_files_queue := []
    idle_files := []
    taken_files := []
    inactive_files := [] }

/-- `FilePool::open_files`. -/
def open_files (p : FilePool) : Nat :=
  p.idle_files.length + p.taken_files.length

/-- `FilePool::close_file`: pop the front of the idle queue, spawn its
sync+close, move it to `inactive_files`.  `none` models the panics
(empty queue, `unreachable!`, failed insert assertion). -/
def close_file (p : FilePool) : Option (FilePool × FileAction) :=
  match p.idle_files_queue with
  | [] => none
  | k :: rest =>
    match alookup p.idle_files k with
    | none => none
    | some e =>
      if k ∈ keys p.inactive_files then none
      else
        some ({ p with
                  idle_files_queue := rest
                  idle_files := aerase p.idle_files k
                  inactive_files := p.inactive_files ++ [(k, ⟨e.cursor⟩)] },
              .syncAndClose k)

/-- The eviction step at the head of `take`'s inactive/new branches:
`if self.open_files() >= self.max_open_files { self.close_file().await }`. -/
def evictIfFull (p : FilePool) : Option (FilePool × List FileAction) :=
  if p.max_open_files ≤ p.open_files then
    (close_file p).map (fun x => (x.1, [x.2]))
  else
    some (p, [])

/-- `FilePool::take`.  Returns the new pool state, the returned
`FilePoolEntry`, and the trace of file actions; `none` models a panic. -/
def take (p : FilePool) (to_take : Key) : Option (FilePool × FilePoolEntry × List FileAction) :=
  if to_take ∈ p.taken_files then none
  else if p.max_open_files ≤ p.taken_files.length then none
  else
    match alookup p.idle_files to_take with
    | some e =>
      -- already open, just idle: remove from queue + idle map, mark taken
      if to_take ∈ p.idle_files_queue then
        some ({ p with
                  idle_files_queue := p.idle_files_queue.erase to_take
                  idle_files := aerase p.idle_files to_take
                  taken_files := p.taken_files ++ [to_take] },
              e, [])
      else none
    | none =>
      match alookup p.inactive_files to_take with
      | some _ =>
        -- the file needs to be re-opened
        match evictIfFull p with
        | none => none
        | some (p1, tr) =>
          match alookup p1.inactive_files to_take with
          | none => none
          | some ie =>
            some ({ p1 with
                      inactive_files := aerase p1.inactive_files to_take
                      taken_files := p1.taken_files ++ [to_take] },
                  ⟨ie.cursor⟩,
                  tr ++ [.awaitClose to_take, .openWrite to_take])
      | none =>
        -- a new file must be created
        match evictIfFull p with
        | none => none
        | some (p1, tr) =>
          some ({ p1 with
                    taken_files := p1.taken_files ++ [to_take] },
                ⟨0⟩, tr ++ [.createTrunc to_take])

/-- `FilePool::give`: move the key from taken back to idle, at the back of the
idle queue. -/
def give (p : FilePool) (key : Key) (entry : FilePoolEntry) : Option FilePool :=
  if key ∈ p.taken_files then
    if key ∈ keys p.idle_files then none
    else
      some { p with
               taken_files := p.taken_files.erase key
               idle_files := p.idle_files ++ [(key, entry)]
               idle_files_queue := p.idle_files_queue ++ [key] }
  else none

/-- The loop `for _i in 0..self.idle_files.len() { self.close_file().await }`
(the bound is evaluated once, before the loop). -/
def closeN : Nat → FilePool → Option FilePool
  | 0, p => some p
  | n + 1, p =>
    match close_file p with
    | none => none
    | some (p', _) => closeN n p'

/-- `FilePool::finish`: close every idle file, then drain `inactive_files`
awaiting each closing task, then assert `idle_files.is_empty()`. -/
def finish (p : FilePool) : Option FilePool :=
  match closeN p.idle_files.length p with
  | none => none
  | some p' =>
    let p'' := { p' with inactive_files := [] }
    if p''.idle_files.isEmpty then some p'' else none

end FilePool

/-- The pool operations a worker performs during a run.  (`give` supplies an
arbitrary cursor, a superset of the behaviours of giving back the entry
obtained from `take`.) -/
inductive PoolOp where
  | take (k : Key)
  | give (k : Key) (cursor : Nat)
  | finish
deriving DecidableEq, Repr

/-- One operation applied to the pool; `none` models a panic. -/
def applyOp (p : FilePool) : PoolOp → Option FilePool
  | .take k => (FilePool.take p k).map (·.1)
  | .give k c => FilePool.give p k ⟨c⟩
  | .finish => FilePool.finish p

/-- A sequence of pool operations. -/
def runOps (p : FilePool) : List PoolOp → Option FilePool
  | [] => some p
  | op :: rest =>
    match applyOp p op with
    | none => none
    | some p' => runOps p' rest

namespace FilePool

/-- Well-formedness of a pool state: the idle queue lists exactly the idle
keys (spec invariant 3), no key set has duplicates, and the taken / idle /
inactive key sets are pairwise disjoint (spec invariant 1). -/
structure WF (p : FilePool) : Prop where
  qp : p.idle_files_queue.Perm (keys p.idle_files)
  qn : p.idle_files_queue.Nodup
  tn : p.taken_files.Nodup
  inn : (keys p.inactive_files).Nodup
  dti : ∀ k ∈ p.taken_files, k ∉ keys p.idle_files
  dtin : ∀ k ∈ p.taken_files, k ∉ keys p.inactive_files
  diin : ∀ k ∈ keys p.idle_files, k ∉ keys p.inactive_files

theorem WF.idle_nodup {p : FilePool} (h : WF p) : (keys p.idle_files).Nodup :=
  h.qp.nodup_iff.mp h.qn

theorem WF.queue_length {p : FilePool} (h : WF p) :
    p.idle_files_queue.length = p.idle_files.length := by
  rw [h.qp.length_eq, length_keys]

theorem WF.new (m : Nat) (r : String) : WF (FilePool.new m r) := by
  constructor <;> simp [FilePool.new, keys]

/-- Inversion of a successful `close_file`. -/
theorem close_file_inv {p p' : FilePool} {a : FileAction}
    (h : close_file p = some (p', a)) :
    ∃ k rest e, p.idle_files_queue = k :: rest ∧
      alookup p.idle_files k = some e ∧
      k ∉ keys p.inactive_files ∧
      a = .syncAndClose k ∧
      p' = { p with
               idle_files_queue := rest
               idle_files := aerase p.idle_files k
               inactive_files := p.inactive_files ++ [(k, ⟨e.cursor⟩)] } := by
  unfold close_file at h
  split at h
  · exact absurd h (by simp)
  · rename_i k rest hq
    split at h
    · exact absurd h (by simp)
    · rename_i e he
      split at h
      · exact absurd h (by simp)
      · rename_i hk
        have hinj := Option.some.inj h
        exact ⟨k, rest, e, hq, he, hk, (congrArg Prod.snd hinj).symm,
          (congrArg Prod.fst hinj).symm⟩

/-- A successful `close_file` preserves well-formedness; the taken set and the
capacity are unchanged, one idle entry becomes inactive. -/
theorem close_file_wf {p p' : FilePool} {a : FileAction}
    (hWF : WF p) (h : close_file p = some (p', a)) :
    WF p' ∧ p'.taken_files = p.taken_files ∧
      p'.max_open_files = p.max_open_files ∧ p'.root = p.root ∧
      p'.idle_files.length + 1 = p.idle_files.length := by
  obtain ⟨k, rest, e, hq, he, hnin, ha, hp'⟩ := close_file_inv h
  have hkid : k ∈ keys p.idle_files := mem_keys_of_alookup he
  have hlen : (aerase p.idle_files k).length + 1 = p.idle_files.length := by
    have h1 : (keys (aerase p.idle_files k)).length = ((keys p.idle_files).erase k).length := by
      rw [keys_aerase]
    have h2 : ((keys p.idle_files).erase k).length = (keys p.idle_files).length - 1 :=
      List.length_erase_of_mem hkid
    have h3 : 1 ≤ (keys p.idle_files).length := List.length_pos.mpr (by
      intro hnil
      rw [hnil] at hkid
      exact absurd hkid (List.not_mem_nil k))
    rw [length_keys] at h2 h3
    rw [length_keys] at h1
    omega
  subst hp'
  refine ⟨?_, rfl, rfl, rfl, hlen⟩
  constructor
  · -- queue ~ idle keys
    have hperm := hWF.qp.erase k
    rw [hq, List.erase_cons_head, keys_aerase] at *
    exact hperm
  · have := hWF.qn
    rw [hq] at this
    exact this.of_cons
  · exact hWF.tn
  · rw [keys_append]
    exact nodup_snoc hWF.inn hnin
  · intro k' hk'
    rw [keys_aerase]
    intro hmem
    exact hWF.dti k' hk' (List.mem_of_mem_erase hmem)
  · intro k' hk'
    rw [keys_append]
    simp only [keys, List.map_cons, List.map_nil, List.mem_append, List.mem_singleton]
    rintro (hmem | hmem)
    · exact hWF.dtin k' hk' hmem
    · exact hWF.dti k' hk' (hmem ▸ hkid)
  · intro k' hk'
    rw [keys_aerase] at hk'
    have hk'' := (hWF.idle_nodup.mem_erase_iff).mp hk'
    rw [keys_append]
    simp only [keys, List.map_cons, List.map_nil, List.mem_append, List.mem_singleton]
    rintro (hmem | hmem)
    · exact hWF.diin k' hk''.2 hmem
    · exact hk''.1 hmem

/-- When the queue is non-empty, `close_file` succeeds and closes precisely
the front of the queue. -/
theorem close_file_front {p : FilePool} (hWF : WF p) {k : Key} {rest : List Key}
    (hq : p.idle_files_queue = k :: rest) :
    ∃ e, alookup p.idle_files k = some e ∧
      close_file p = some ({ p with
          idle_files_queue := rest
          idle_files := aerase p.idle_files k
          inactive_files := p.inactive_files ++ [(k, ⟨e.cursor⟩)] },
        .syncAndClose k) := by
  have hkq : k ∈ p.idle_files_queue := by rw [hq]; exact List.mem_cons_self k rest
  have hkid : k ∈ keys p.idle_files := hWF.qp.mem_iff.mp hkq
  obtain ⟨e, he⟩ := Option.isSome_iff_exists.mp ((alookup_isSome _ _).mpr hkid)
  refine ⟨e, he, ?_⟩
  unfold close_file
  rw [hq]
  simp [he, hWF.diin k hkid]

/-- Specification of the eviction step: well-formedness is preserved, taken
files and capacity are unchanged, inactive lookups are preserved, and when the
pool was full exactly one idle file (some idle key `v`) was closed. -/
theorem evictIfFull_spec {p p1 : FilePool} {tr : List FileAction}
    (hWF : WF p) (h : evictIfFull p = some (p1, tr)) :
    WF p1 ∧ p1.taken_files = p.taken_files ∧
      p1.max_open_files = p.max_open_files ∧ p1.root = p.root ∧
      p1.open_files + (if p.max_open_files ≤ p.open_files then 1 else 0) = p.open_files ∧
      (∀ k c, alookup p.inactive_files k = some c → alookup p1.inactive_files k = some c) ∧
      (∀ k, k ∉ keys p.idle_files → k ∉ keys p.inactive_files → k ∉ keys p1.inactive_files) ∧
      (∀ k, k ∈ keys p1.idle_files → k ∈ keys p.idle_files) ∧
      (p.max_open_files ≤ p.open_files →
        ∃ v, v ∈ keys p.idle_files ∧ tr = [.syncAndClose v]) ∧
      (¬ p.max_open_files ≤ p.open_files → p1 = p ∧ tr = []) := by
  unfold evictIfFull at h
  split at h
  · rename_i hfull
    cases hc : close_file p with
    | none => rw [hc] at h; exact absurd h (by simp)
    | some res =>
      obtain ⟨pc, a⟩ := res
      rw [hc] at h
      simp only [Option.map_some'] at h
      have hinj := Option.some.inj h
      have hps : pc = p1 := congrArg Prod.fst hinj
      have hts : [a] = tr := congrArg Prod.snd hinj
      subst hps
      obtain ⟨k, rest, e, hq, he, hnin, ha, hp'⟩ := close_file_inv hc
      obtain ⟨hwf1, htk, hmx, hrt, hlen⟩ := close_file_wf hWF hc
      have hkid : k ∈ keys p.idle_files := mem_keys_of_alookup he
      refine ⟨hwf1, htk, hmx, hrt, ?_, ?_, ?_, ?_, ?_, ?_⟩
      · rw [if_pos hfull]
        unfold open_files
        rw [htk]
        omega
      · intro k' c hl
        rw [hp']
        exact alookup_append_left _ _ _ hl
      · intro k' hk'id hk'in
        rw [hp', keys_append]
        simp only [keys, List.map_cons, List.map_nil, List.mem_append, List.mem_singleton]
        rintro (hmem | hmem)
        · exact hk'in hmem
        · exact hk'id (hmem ▸ hkid)
      · intro k' hk'
        rw [hp', keys_aerase] at hk'
        exact List.mem_of_mem_erase hk'
      · intro _
        rw [← hts, ha]
        exact ⟨k, hkid, rfl⟩
      · intro hnf
        exact absurd hfull hnf
  · rename_i hnfull
    have hinj := Option.some.inj h
    have hps : p = p1 := congrArg Prod.fst hinj
    have hts : ([] : List FileAction) = tr := congrArg Prod.snd hinj
    subst hps
    refine ⟨hWF, rfl, rfl, rfl, ?_, fun _ _ hl => hl, fun _ _ h2 => h2, fun _ h1 => h1,
      fun hf => absurd hf hnfull, fun _ => ⟨rfl, hts.symm⟩⟩
    rw [if_neg hnfull]
    omega

/-- The eviction step always succeeds on a well-formed pool when fewer than
`max_open_files` files are taken. -/
theorem evictIfFull_isSome {p : FilePool} (hWF : WF p)
    (htl : p.taken_files.length < p.max_open_files) :
    ∃ p1 tr, evictIfFull p = some (p1, tr) := by
  unfold evictIfFull
  split
  · rename_i hfull
    have hql : p.idle_files_queue.length = p.idle_files.length := hWF.queue_length
    have hqpos : 0 < p.idle_files_queue.length := by
      unfold open_files at hfull
      omega
    obtain ⟨k, rest, hq⟩ := List.exists_cons_of_ne_nil (List.ne_nil_of_length_pos hqpos)
    obtain ⟨e, _, hc⟩ := close_file_front hWF hq
    rw [hc]
    exact ⟨_, _, rfl⟩
  · exact ⟨p, [], rfl⟩

/-- A successful `take` preserves well-formedness and the open-handle bound,
and leaves the capacity unchanged. -/
theorem take_pres {p p' : FilePool} {k : Key} {e : FilePoolEntry} {tr : List FileAction}
    (hWF : WF p) (hb : p.open_files ≤ p.max_open_files)
    (h : take p k = some (p', e, tr)) :
    WF p' ∧ p'.open_files ≤ p'.max_open_files ∧ p'.max_open_files = p.max_open_files := by
  unfold take at h
  split at h
  · exact absurd h (by simp)
  rename_i hnt
  split at h
  · exact absurd h (by simp)
  rename_i hcap
  push_neg at hcap
  split at h
  · -- idle branch
    rename_i e0 he0
    split at h
    · rename_i hkq
      have hinj := Option.some.inj h
      have hp' : p' = { p with
          idle_files_queue := p.idle_files_queue.erase k
          idle_files := aerase p.idle_files k
          taken_files := p.taken_files ++ [k] } := (congrArg Prod.fst hinj).symm
      have hkid : k ∈ keys p.idle_files := mem_keys_of_alookup he0
      have hlen : (aerase p.idle_files k).length + 1 = p.idle_files.length := by
        have h1 := keys_aerase p.idle_files k
        have h2 : ((keys p.idle_files).erase k).length = (keys p.idle_files).length - 1 :=
          List.length_erase_of_mem hkid
        have h3 : 0 < (keys p.idle_files).length := List.length_pos.mpr
          (fun hnil => absurd (hnil ▸ hkid) (List.not_mem_nil k))
        have h4 : (keys (aerase p.idle_files k)).length = ((keys p.idle_files).erase k).length :=
          congrArg List.length h1
        rw [length_keys] at h2 h3 h4
        omega
      subst hp'
      refine ⟨?_, ?_, rfl⟩
      · constructor
        · rw [keys_aerase]
          exact hWF.qp.erase k
        · exact hWF.qn.erase k
        · exact nodup_snoc hWF.tn hnt
        · exact hWF.inn
        · intro k' hk'
          rw [keys_aerase]
          rcases List.mem_append.mp hk' with hk' | hk'
          · intro hmem
            exact hWF.dti k' hk' (List.mem_of_mem_erase hmem)
          · rw [List.mem_singleton] at hk'
            subst hk'
            intro hmem
            exact ((hWF.idle_nodup.mem_erase_iff).mp hmem).1 rfl
        · intro k' hk'
          rcases List.mem_append.mp hk' with hk' | hk'
          · exact hWF.dtin k' hk'
          · rw [List.mem_singleton] at hk'
            rw [hk']
            exact hWF.diin k hkid
        · intro k' hk'
          rw [keys_aerase] at hk'
          exact hWF.diin k' (List.mem_of_mem_erase hk')
      · simp only [open_files, List.length_append, List.length_singleton]
        unfold open_files at hb
        omega
    · exact absurd h (by simp)
  · -- not idle
    rename_i hnidle
    split at h
    · -- inactive branch
      rename_i ie0 hie0
      split at h
      · exact absurd h (by simp)
      rename_i p1 tr1 hev
      split at h
      · exact absurd h (by simp)
      rename_i ie hie
      have hinj := Option.some.inj h
      have hp' : p' = { p1 with
          inactive_files := aerase p1.inactive_files k
          taken_files := p1.taken_files ++ [k] } := (congrArg Prod.fst hinj).symm
      obtain ⟨hwf1, htk, hmx, hrt, hopen, hlkp, hfresh, hsub, htr1, htr2⟩ :=
        evictIfFull_spec hWF hev
      have hkin1 : k ∈ keys p1.inactive_files := mem_keys_of_alookup hie
      have hknt1 : k ∉ p1.taken_files := fun hmem => hwf1.dtin k hmem hkin1
      have hknid1 : k ∉ keys p1.idle_files := fun hmem => hwf1.diin k hmem hkin1
      subst hp'
      refine ⟨?_, ?_, hmx⟩
      · constructor
        · exact hwf1.qp
        · exact hwf1.qn
        · exact nodup_snoc hwf1.tn hknt1
        · rw [keys_aerase]
          exact hwf1.inn.erase k
        · intro k' hk'
          rcases List.mem_append.mp hk' with hk' | hk'
          · exact hwf1.dti k' hk'
          · rw [List.mem_singleton] at hk'
            subst hk'
            exact hknid1
        · intro k' hk'
          rw [keys_aerase]
          rcases List.mem_append.mp hk' with hk' | hk'
          · intro hmem
            exact hwf1.dtin k' hk' (List.mem_of_mem_erase hmem)
          · rw [List.mem_singleton] at hk'
            subst hk'
            intro hmem
            exact ((hwf1.inn.mem_erase_iff).mp hmem).1 rfl
        · intro k' hk'
          rw [keys_aerase]
          intro hmem
          exact hwf1.diin k' hk' (List.mem_of_mem_erase hmem)
      · have htl2 : p1.taken_files.length = p.taken_files.length := by rw [htk]
        simp only [open_files, List.length_append, List.length_singleton]
        unfold open_files at hopen hb
        split at hopen <;> omega
    · -- new-file branch
      rename_i hninact
      split at h
      · exact absurd h (by simp)
      rename_i p1 tr1 hev
      have hinj := Option.some.inj h
      have hp' : p' = { p1 with taken_files := p1.taken_files ++ [k] } :=
        (congrArg Prod.fst hinj).symm
      obtain ⟨hwf1, htk, hmx, hrt, hopen, hlkp, hfresh, hsub, htr1, htr2⟩ :=
        evictIfFull_spec hWF hev
      have hknidle : k ∉ keys p.idle_files := (alookup_eq_none _ _).mp hnidle
      have hkninact : k ∉ keys p.inactive_files := (alookup_eq_none _ _).mp hninact
      have hknt1 : k ∉ p1.taken_files := htk ▸ hnt
      have hknid1 : k ∉ keys p1.idle_files := fun hmem => hknidle (hsub k hmem)
      have hknin1 : k ∉ keys p1.inactive_files := hfresh k hknidle hkninact
      subst hp'
      refine ⟨?_, ?_, hmx⟩
      · constructor
        · exact hwf1.qp
        · exact hwf1.qn
        · exact nodup_snoc hwf1.tn hknt1
        · exact hwf1.inn
        · intro k' hk'
          rcases List.mem_append.mp hk' with hk' | hk'
          · exact hwf1.dti k' hk'
          · rw [List.mem_singleton] at hk'
            subst hk'
            exact hknid1
        · intro k' hk'
          rcases List.mem_append.mp hk' with hk' | hk'
          · exact hwf1.dtin k' hk'
          · rw [List.mem_singleton] at hk'
            subst hk'
            exact hknin1
        · exact hwf1.diin
      · have htl2 : p1.taken_files.length = p.taken_files.length := by rw [htk]
        simp only [open_files, List.length_append, List.length_singleton]
        unfold open_files at hopen hb
        split at hopen <;> omega

/-- A successful `give` preserves well-formedness and the open-handle bound;
the key is appended to the back of the idle queue. -/
theorem give_pres {p p' : FilePool} {k : Key} {e : FilePoolEntry}
    (hWF : WF p) (hb : p.open_files ≤ p.max_open_files)
    (h : give p k e = some p') :
    WF p' ∧ p'.open_files ≤ p'.max_open_files ∧ p'.max_open_files = p.max_open_files ∧
      p'.idle_files_queue = p.idle_files_queue ++ [k] := by
  unfold give at h
  split at h
  · rename_i hkt
    split at h
    · exact absurd h (by simp)
    rename_i hknid
    have hp' : p' = { p with
        taken_files := p.taken_files.erase k
        idle_files := p.idle_files ++ [(k, e)]
        idle_files_queue := p.idle_files_queue ++ [k] } := (Option.some.inj h).symm
    have hknq : k ∉ p.idle_files_queue := fun hq => hknid (hWF.qp.mem_iff.mp hq)
    subst hp'
    refine ⟨?_, ?_, rfl, rfl⟩
    · constructor
      · rw [keys_append]
        exact hWF.qp.append (List.Perm.refl [k])
      · exact nodup_snoc hWF.qn hknq
      · exact hWF.tn.erase k
      · exact hWF.inn
      · intro k' hk'
        rw [keys_append]
        have hk'' := List.mem_of_mem_erase hk'
        simp only [keys, List.map_cons, List.map_nil, List.mem_append, List.mem_singleton]
        rintro (hmem | hmem)
        · exact hWF.dti k' hk'' hmem
        · subst hmem
          exact (hWF.tn.mem_erase_iff.mp hk').1 rfl
      · intro k' hk'
        exact hWF.dtin k' (List.mem_of_mem_erase hk')
      · intro k' hk'
        rw [keys_append] at hk'
        simp only [keys, List.map_cons, List.map_nil, List.mem_append,
          List.mem_singleton] at hk'
        rcases hk' with hk' | hk'
        · exact hWF.diin k' hk'
        · subst hk'
          exact fun hmem => hWF.dtin k' hkt hmem
    · have hlt : (p.taken_files.erase k).length = p.taken_files.length - 1 :=
        List.length_erase_of_mem hkt
      have hpos : 0 < p.taken_files.length := List.length_pos.mpr
        (fun hnil => absurd (hnil ▸ hkt) (List.not_mem_nil k))
      simp only [open_files, List.length_append, List.length_singleton]
      unfold open_files at hb
      omega
  · exact absurd h (by simp)

/-- Iterating `close_file` as many times as there are idle files succeeds on a
well-formed pool and empties the idle map and queue, leaving taken files and
capacity unchanged. -/
theorem closeN_spec : ∀ (n : Nat) (p : FilePool), WF p → p.idle_files.length = n →
    ∃ p', closeN n p = some p' ∧ WF p' ∧ p'.idle_files = [] ∧
      p'.idle_files_queue = [] ∧ p'.taken_files = p.taken_files ∧
      p'.max_open_files = p.max_open_files ∧ p'.open_files ≤ p.open_files := by
  intro n
  induction n with
  | zero =>
    intro p hWF hlen
    have hnil : p.idle_files = [] := List.length_eq_zero.mp hlen
    have hqnil : p.idle_files_queue = [] := by
      have := hWF.queue_length
      rw [hlen] at this
      exact List.length_eq_zero.mp this
    exact ⟨p, rfl, hWF, hnil, hqnil, rfl, rfl, le_refl _⟩
  | succ n ih =>
    intro p hWF hlen
    have hql : p.idle_files_queue.length = n + 1 := by rw [hWF.queue_length, hlen]
    have hqne : p.idle_files_queue ≠ [] := by
      intro hnil
      rw [hnil] at hql
      simp at hql
    obtain ⟨k, rest, hq⟩ := List.exists_cons_of_ne_nil hqne
    obtain ⟨e, he, hc⟩ := close_file_front hWF hq
    obtain ⟨hwf1, htk, hmx, hrt, hlen1⟩ := close_file_wf hWF hc
    have halen : (aerase p.idle_files k).length + 1 = p.idle_files.length := hlen1
    obtain ⟨p', hrun, hwf', hnil', hqnil', htk', hmx', hopen'⟩ :=
      ih { p with
            idle_files_queue := rest
            idle_files := aerase p.idle_files k
            inactive_files := p.inactive_files ++ [(k, ⟨e.cursor⟩)] }
        hwf1 (show (aerase p.idle_files k).length = n by omega)
    refine ⟨p', ?_, hwf', hnil', hqnil', htk'.trans htk, hmx'.trans hmx, ?_⟩
    · unfold closeN
      rw [hc]
      exact hrun
    · refine le_trans hopen' ?_
      show (aerase p.idle_files k).length + p.taken_files.length ≤
        p.idle_files.length + p.taken_files.length
      omega

/-- `FilePool::finish` on a well-formed pool succeeds; afterwards there are no
idle and no inactive entries, and the taken set is exactly what it was. -/
theorem finish_spec {p : FilePool} (hWF : WF p) :
    ∃ p', finish p = some p' ∧ p'.idle_files = [] ∧ p'.inactive_files = [] ∧
      p'.idle_files_queue = [] ∧ p'.taken_files = p.taken_files ∧
      p'.max_open_files = p.max_open_files ∧ WF p' ∧ p'.open_files ≤ p.open_files := by
  obtain ⟨p1, hrun, hwf1, hnil, hqnil, htk, hmx, hopen⟩ :=
    closeN_spec p.idle_files.length p hWF rfl
  refine ⟨{ p1 with inactive_files := [] }, ?_, hnil, rfl, hqnil, htk, hmx, ?_, ?_⟩
  · unfold finish
    rw [hrun]
    simp [hnil]
  · constructor
    · exact hwf1.qp
    · exact hwf1.qn
    · exact hwf1.tn
    · simp [keys]
    · exact hwf1.dti
    · intro k hk
      simp [keys]
    · intro k hk
      simp [keys]
  · exact hopen

/-- Every single pool operation preserves well-formedness, the open-handle
bound, and the capacity. -/
theorem applyOp_pres {p p' : FilePool} {op : PoolOp}
    (hWF : WF p) (hb : p.open_files ≤ p.max_open_files)
    (h : applyOp p op = some p') :
    WF p' ∧ p'.open_files ≤ p'.max_open_files ∧ p'.max_open_files = p.max_open_files := by
  cases op with
  | take k =>
    simp only [applyOp] at h
    cases ht : FilePool.take p k with
    | none => rw [ht] at h; exact absurd h (by simp)
    | some res =>
      rw [ht] at h
      simp only [Option.map_some'] at h
      obtain ⟨pr, e, tr⟩ := res
      obtain ⟨hwf', hb', hmx'⟩ := take_pres hWF hb ht
      have : pr = p' := Option.some.inj h
      subst this
      exact ⟨hwf', hb', hmx'⟩
  | give k c =>
    simp only [applyOp] at h
    obtain ⟨hwf', hb', hmx', _⟩ := give_pres hWF hb h
    exact ⟨hwf', hb', hmx'⟩
  | finish =>
    simp only [applyOp] at h
    obtain ⟨p'', hfin, hnil, hinil, hqnil, htk, hmx, hwf', hopen⟩ := finish_spec hWF
    rw [hfin] at h
    have : p'' = p' := Option.some.inj h
    subst this
    exact ⟨hwf', by rw [hmx]; exact le_trans hopen hb, hmx⟩

/-- Every sequence of pool operations that executes without a panic preserves
well-formedness, the open-handle bound, and the capacity. -/
theorem runOps_pres : ∀ (ops : List PoolOp) (p p' : FilePool),
    WF p → p.open_files ≤ p.max_open_files → runOps p ops = some p' →
    WF p' ∧ p'.open_files ≤ p'.max_open_files ∧ p'.max_open_files = p.max_open_files := by
  intro ops
  induction ops with
  | nil =>
    intro p p' hWF hb h
    have : p = p' := Option.some.inj h
    subst this
    exact ⟨hWF, hb, rfl⟩
  | cons op rest ih =>
    intro p p' hWF hb h
    unfold runOps at h
    cases ha : applyOp p op with
    | none => rw [ha] at h; exact absurd h (by simp)
    | some p1 =>
      rw [ha] at h
      obtain ⟨hwf1, hb1, hmx1⟩ := applyOp_pres hWF hb ha
      obtain ⟨hwf', hb', hmx'⟩ := ih p1 p' hwf1 hb1 h
      exact ⟨hwf', hb', hmx'.trans hmx1⟩

end FilePool

/-- The per-worker pools of the engine: pool `i` gets capacity `caps[i]`, runs
its own operation sequence, and the engine-wide count of open handles is the
sum over the workers.  (`output.rs` spawns one `FilePool` per thread with the
capacities produced by `get_even_partition`.) -/
def engineOpen : List Nat → List (List PoolOp) → Option Nat
  | [], _ => some 0
  | _ :: _, [] => some 0
  | c :: cs, ops :: rest =>
    match runOps (FilePool.new c "out") ops with
    | none => none
    | some p =>
      match engineOpen cs rest with
      | none => none
      | some t => some (p.open_files + t)

/-- The total open-handle count of the engine is bounded by the sum of the
per-worker capacities. -/
theorem engineOpen_le_sum : ∀ (caps : List Nat) (opss : List (List PoolOp)) (t : Nat),
    engineOpen caps opss = some t → t ≤ caps.sum := by
  intro caps
  induction caps with
  | nil =>
    intro opss t h
    cases opss <;> simp [engineOpen] at h <;> omega
  | cons c cs ih =>
    intro opss t h
    cases opss with
    | nil =>
      simp [engineOpen] at h
      omega
    | cons ops rest =>
      unfold engineOpen at h
      cases hr : runOps (FilePool.new c "out") ops with
      | none => rw [hr] at h; exact absurd h (by simp)
      | some p =>
        rw [hr] at h
        cases he : engineOpen cs rest with
        | none => rw [he] at h; exact absurd h (by simp)
        | some t' =>
          rw [he] at h
          have ht : p.open_files + t' = t := Option.some.inj h
          have h1 : p.open_files ≤ c := by
            have hmx : (FilePool.new c "out").max_open_files = c := rfl
            obtain ⟨_, hb, hmx'⟩ := FilePool.runOps_pres ops _ p (FilePool.WF.new c "out")
              (by simp [FilePool.new, FilePool.open_files]) hr
            rw [hmx', hmx] at hb
            exact hb
          have h2 : t' ≤ cs.sum := ih rest t' he
          simp only [List.sum_cons]
          omega

namespace FilePool

/-- Inversion of a successful `give` (no well-formedness needed). -/
theorem give_inv {p p' : FilePool} {k : Key} {e : FilePoolEntry}
    (h : give p k e = some p') :
    k ∈ p.taken_files ∧ k ∉ keys p.idle_files ∧
      p' = { p with
               taken_files := p.taken_files.erase k
               idle_files := p.idle_files ++ [(k, e)]
               idle_files_queue := p.idle_files_queue ++ [k] } := by
  unfold give at h
  split at h
  · rename_i hkt
    split at h
    · exact absurd h (by simp)
    · rename_i hknid
      exact ⟨hkt, hknid, (Option.some.inj h).symm⟩
  · exact absurd h (by simp)

/-- Taking a key whose file is inactive: the prior close is awaited, the file
is reopened for writing without truncation, the returned cursor is the stored
cursor, and the key becomes taken — evicting one idle key first iff the pool
is at capacity. -/
theorem take_inactive_spec {p : FilePool} {k : Key} {c : Nat}
    (hWF : WF p) (hcap : p.taken_files.length < p.max_open_files)
    (hin : alookup p.inactive_files k = some ⟨c⟩) :
    ∃ p' tr, take p k = some (p', ⟨c⟩, tr) ∧ k ∈ p'.taken_files ∧
      k ∉ keys p'.inactive_files ∧
      ((p.open_files < p.max_open_files ∧
          tr = [.awaitClose k, .openWrite k]) ∨
       (p.max_open_files ≤ p.open_files ∧
          ∃ v, v ∈ keys p.idle_files ∧
            tr = [.syncAndClose v, .awaitClose k, .openWrite k])) := by
  have hkin : k ∈ keys p.inactive_files := mem_keys_of_alookup hin
  have h1 : ¬ k ∈ p.taken_files := fun hmem => hWF.dtin k hmem hkin
  have h2 : ¬ p.max_open_files ≤ p.taken_files.length := by omega
  have hknid : k ∉ keys p.idle_files := fun hmem => hWF.diin k hmem hkin
  have hid : alookup p.idle_files k = none := (alookup_eq_none _ _).mpr hknid
  obtain ⟨p1, tr1, hev⟩ := evictIfFull_isSome hWF hcap
  obtain ⟨hwf1, htk, hmx, hrt, hopen, hlkp, hfresh, hsub, htr1, htr2⟩ :=
    evictIfFull_spec hWF hev
  have hin1 : alookup p1.inactive_files k = some ⟨c⟩ := hlkp k ⟨c⟩ hin
  refine ⟨{ p1 with
              inactive_files := aerase p1.inactive_files k
              taken_files := p1.taken_files ++ [k] },
          tr1 ++ [.awaitClose k, .openWrite k], ?_, ?_, ?_, ?_⟩
  · simp only [take, hid, hin, hev, hin1, if_neg h1, if_neg h2]
  · exact List.mem_append.mpr (Or.inr (List.mem_singleton.mpr rfl))
  · show k ∉ keys (aerase p1.inactive_files k)
    rw [keys_aerase]
    intro hmem
    exact ((hwf1.inn.mem_erase_iff).mp hmem).1 rfl
  · by_cases hfull : p.max_open_files ≤ p.open_files
    · obtain ⟨v, hv, htr⟩ := htr1 hfull
      exact Or.inr ⟨hfull, v, hv, by rw [htr]; rfl⟩
    · obtain ⟨_, htr⟩ := htr2 hfull
      exact Or.inl ⟨by omega, by rw [htr]; rfl⟩

/-- Taking a never-seen key: the file is created (truncating), the returned
cursor is `0`, and the key becomes taken — evicting one idle key first iff
the pool is at capacity. -/
theorem take_new_spec {p : FilePool} {k : Key}
    (hWF : WF p) (hcap : p.taken_files.length < p.max_open_files)
    (hknt : k ∉ p.taken_files)
    (hknid : k ∉ keys p.idle_files)
    (hknin : k ∉ keys p.inactive_files) :
    ∃ p' tr, take p k = some (p', ⟨0⟩, tr) ∧ k ∈ p'.taken_files ∧
      ((p.open_files < p.max_open_files ∧ tr = [.createTrunc k]) ∨
       (p.max_open_files ≤ p.open_files ∧
          ∃ v, v ∈ keys p.idle_files ∧ tr = [.syncAndClose v, .createTrunc k])) := by
  have h2 : ¬ p.max_open_files ≤ p.taken_files.length := by omega
  have hid : alookup p.idle_files k = none := (alookup_eq_none _ _).mpr hknid
  have hinn : alookup p.inactive_files k = none := (alookup_eq_none _ _).mpr hknin
  obtain ⟨p1, tr1, hev⟩ := evictIfFull_isSome hWF hcap
  refine ⟨{ p1 with taken_files := p1.taken_files ++ [k] },
          tr1 ++ [.createTrunc k], ?_, ?_, ?_⟩
  · simp only [take, hid, hinn, hev, if_neg hknt, if_neg h2]
  · exact List.mem_append.mpr (Or.inr (List.mem_singleton.mpr rfl))
  · obtain ⟨hwf1, htk, hmx, hrt, hopen, hlkp, hfresh, hsub, htr1, htr2⟩ :=
      evictIfFull_spec hWF hev
    by_cases hfull : p.max_open_files ≤ p.open_files
    · obtain ⟨v, hv, htr⟩ := htr1 hfull
      exact Or.inr ⟨hfull, v, hv, by rw [htr]; rfl⟩
    · obtain ⟨_, htr⟩ := htr2 hfull
      exact Or.inl ⟨by omega, by rw [htr]; rfl⟩

end FilePool

/-- Concrete well-formed pool used to witness the `finish` claim: capacity 2,
key "b" idle at cursor 5, key "a" taken, key "c" inactive at cursor 3. -/
def poolC1 : FilePool :=
  { max_open_files := 2
    root := "out"
    idle_files_queue := ["b"]
    idle_files := [("b", ⟨5⟩)]
    taken_files := ["a"]
    inactive_files := [("c", ⟨3⟩)] }

/-- Concrete well-formed pool used to witness the inactive-reopen claim:
capacity 1, key "b" idle at cursor 5, key "a" inactive at cursor 7. -/
def poolC7 : FilePool :=
  { max_open_files := 1
    root := "out"
    idle_files_queue := ["b"]
    idle_files := [("b", ⟨5⟩)]
    taken_files := []
    inactive_files := [("a", ⟨7⟩)] }

/-- Concrete result state of taking "a" from a fresh pool of capacity 1. -/
def poolTakeA : FilePool :=
  { max_open_files := 1
    root := "out"
    idle_files_queue := []
    idle_files := []
    taken_files := ["a"]
    inactive_files := [] }

/-- Concrete result state of taking and giving back "a" on a fresh pool of
capacity 2. -/
def poolGiveA : FilePool :=
  { max_open_files := 2
    root := "out"
    idle_files_queue := ["a"]
    idle_files := [("a", ⟨9⟩)]
    taken_files := []
    inactive_files := [] }

/-- Concrete result state of giving "a" back to `poolC1`. -/
def poolC1given : FilePool :=
  { max_open_files := 2
    root := "out"
    idle_files_queue := ["b", "a"]
    idle_files := [("b", ⟨5⟩), ("a", ⟨6⟩)]
    taken_files := []
    inactive_files := [("c", ⟨3⟩)] }

/-- Concrete result state of `close_file` on `poolC1`. -/
def poolC1closed : FilePool :=
  { max_open_files := 2
    root := "out"
    idle_files_queue := []
    idle_files := []
    taken_files := ["a"]
    inactive_files := [("c", ⟨3⟩), ("b", ⟨5⟩)] }

/-- The `Finish` arm of `output_thread` (`output.rs:133-143`): each encoder's
key is taken for the trailer write and the entry is then dropped, never given
back; afterwards the thread asserts the pool holds no idle and no inactive
files (the called `has_no_idle_or_inactive_files`, modelled by its name;
`file_pool.rs` as shipped defines only `has_no_file_handles`, which checks
idle alone) and exits.  `FilePool::finish` is never called. -/
def output_thread_finish (p : FilePool) : List Key → Option FilePool
  | [] =>
    if p.idle_files.isEmpty ∧ p.inactive_files.isEmpty then some p else none
  | k :: rest =>
    match FilePool.take p k with
    | none => none
    | some (p', _, _) => output_thread_finish p' rest

/-- Claim C1 counterexample: a worker that takes a file and then runs
`FilePool::finish` ends with the taken set still holding the key — `finish`
returns with a taken entry present, contradicting "upon return there are no
idle, no inactive, and no taken entries".  The same holds for the worker's
actual `Finish` path: after one `Write` of key "a" (take then give), the
`Finish` arm takes "a" again for the trailer, its assertion passes, and the
worker exits with "a" still taken. -/
theorem finish_leaves_taken_counterexample :
    ((runOps (FilePool.new 2 "out") [PoolOp.take "a", PoolOp.finish]).map
        FilePool.taken_files = some ["a"] ∧
      some ["a"] ≠ some ([] : List Key)) ∧
    ((runOps (FilePool.new 2 "out") [PoolOp.take "a", PoolOp.give "a" 0]).bind
        (fun p => output_thread_finish p ["a"])).map FilePool.taken_files =
      some ["a"] := by
  refine ⟨⟨?_, ?_⟩, ?_⟩
  · rfl
  · simp
  · rfl

/-- Claim C1 (amended): upon return from `FilePool::finish` on a well-formed
pool there are no idle entries and no inactive entries, but the taken set is
exactly what it was when `finish` was called — `finish` neither empties nor
checks `taken_files`. -/
theorem finish_postcondition (p : FilePool) (hWF : FilePool.WF p) :
    ∃ p', FilePool.finish p = some p' ∧ p'.idle_files = [] ∧
      p'.inactive_files = [] ∧ p'.taken_files = p.taken_files := by
  obtain ⟨p', h1, h2, h3, _, h5, _, _, _⟩ := FilePool.finish_spec hWF
  exact ⟨p', h1, h2, h3, h5⟩

/-- Witness for the amended C1 theorem at the concrete pool `poolC1`. -/
theorem finish_postcondition_witness :
    FilePool.WF poolC1 ∧
      ∃ p', FilePool.finish poolC1 = some p' ∧ p'.idle_files = [] ∧
        p'.inactive_files = [] ∧ p'.taken_files = poolC1.taken_files :=
  have hwf : FilePool.WF poolC1 := by constructor <;> decide
  ⟨hwf, finish_postcondition poolC1 hwf⟩

/-- Claim C2: for every panic-free sequence of pool operations from a fresh
pool, `|taken| + |idle| ≤ max_open_files` holds at every instant (every
prefix of the run ends in a state satisfying the bound); and engine-wide,
with per-worker capacities `get_even_partition num_workers max_active_files`,
the total number of open handles over all workers never exceeds
`max_active_files`. -/
theorem pool_capacity_invariant :
    (∀ (m : Nat) (r : String) (ops : List PoolOp) (p' : FilePool),
        runOps (FilePool.new m r) ops = some p' →
        p'.taken_files.length + p'.idle_files.length ≤ m) ∧
    (∀ (n m : Nat) (opss : List (List PoolOp)) (t : Nat),
        1 ≤ n → engineOpen (get_even_partition n m) opss = some t → t ≤ m) := by
  constructor
  · intro m r ops p' h
    obtain ⟨_, hb, hmx⟩ := FilePool.runOps_pres ops _ p' (FilePool.WF.new m r)
      (by simp [FilePool.new, FilePool.open_files]) h
    rw [hmx] at hb
    have hm : (FilePool.new m r).max_open_files = m := rfl
    rw [hm] at hb
    unfold FilePool.open_files at hb
    omega
  · intro n m opss t hn h
    have h1 := engineOpen_le_sum _ _ _ h
    rw [get_even_partition_sum n m hn] at h1
    exact h1

/-- Witness for the C2 theorem: a one-op run on a pool of capacity 1, and a
two-worker engine with `max_active_files = 3`. -/
theorem pool_capacity_invariant_witness :
    (runOps (FilePool.new 1 "out") [PoolOp.take "a"] = some poolTakeA ∧
      poolTakeA.taken_files.length + poolTakeA.idle_files.length ≤ 1) ∧
    ((1 : Nat) ≤ 2 ∧
      engineOpen (get_even_partition 2 3) [[PoolOp.take "a"], []] = some 1 ∧
      (1 : Nat) ≤ 3) :=
  ⟨⟨by decide, pool_capacity_invariant.1 1 "out" [PoolOp.take "a"] poolTakeA (by decide)⟩,
   by decide, by decide,
   pool_capacity_invariant.2 2 3 [[PoolOp.take "a"], []] 1 (by decide) (by decide)⟩

/-- Claim C6: (a) after every panic-free run from a fresh pool the idle queue
contains exactly the keys of the idle map (as a permutation, without
duplicates); (b) `give` appends the returned key to the back of the queue;
(c) `close_file` removes the key at the front of the queue, closing it
(sync+close) and moving its cursor to the inactive map. -/
theorem idle_queue_lockstep :
    (∀ (m : Nat) (r : String) (ops : List PoolOp) (p' : FilePool),
        runOps (FilePool.new m r) ops = some p' →
        p'.idle_files_queue.Perm (keys p'.idle_files) ∧ p'.idle_files_queue.Nodup) ∧
    (∀ (p p' : FilePool) (k : Key) (e : FilePoolEntry),
        FilePool.give p k e = some p' →
        p'.idle_files_queue = p.idle_files_queue ++ [k]) ∧
    (∀ (p p' : FilePool) (a : FileAction),
        FilePool.close_file p = some (p', a) →
        ∃ k e, p.idle_files_queue = k :: p'.idle_files_queue ∧
          a = FileAction.syncAndClose k ∧
          alookup p.idle_files k = some e ∧
          p'.idle_files = aerase p.idle_files k ∧
          p'.inactive_files = p.inactive_files ++ [(k, ⟨e.cursor⟩)]) := by
  refine ⟨?_, ?_, ?_⟩
  · intro m r ops p' h
    obtain ⟨hwf, _, _⟩ := FilePool.runOps_pres ops _ p' (FilePool.WF.new m r)
      (by simp [FilePool.new, FilePool.open_files]) h
    exact ⟨hwf.qp, hwf.qn⟩
  · intro p p' k e h
    obtain ⟨_, _, hp'⟩ := FilePool.give_inv h
    rw [hp']
  · intro p p' a h
    obtain ⟨k, rest, e, hq, he, _, ha, hp'⟩ := FilePool.close_file_inv h
    exact ⟨k, e, by rw [hp', hq], ha, he, by rw [hp'], by rw [hp']⟩

/-- Witness for the C6 theorem: a run that takes and gives back "a", a
concrete `give` on `poolC1`, and a concrete `close_file` on `poolC1`. -/
theorem idle_queue_lockstep_witness :
    (runOps (FilePool.new 2 "out") [PoolOp.take "a", PoolOp.give "a" 9] =
        some poolGiveA ∧
      poolGiveA.idle_files_queue.Perm (keys poolGiveA.idle_files) ∧
      poolGiveA.idle_files_queue.Nodup) ∧
    (FilePool.give poolC1 "a" ⟨6⟩ = some poolC1given ∧
      poolC1given.idle_files_queue = poolC1.idle_files_queue ++ ["a"]) ∧
    (FilePool.close_file poolC1 = some (poolC1closed, .syncAndClose "b") ∧
      ∃ k e, poolC1.idle_files_queue = k :: poolC1closed.idle_files_queue ∧
        FileAction.syncAndClose "b" = FileAction.syncAndClose k ∧
        alookup poolC1.idle_files k = some e ∧
        poolC1closed.idle_files = aerase poolC1.idle_files k ∧
        poolC1closed.inactive_files = poolC1.inactive_files ++ [(k, ⟨e.cursor⟩)]) := by
  refine ⟨⟨by decide, ?_⟩, ⟨by decide, ?_⟩, by decide, ?_⟩
  · exact idle_queue_lockstep.1 2 "out" [PoolOp.take "a", PoolOp.give "a" 9]
      poolGiveA (by decide)
  · exact idle_queue_lockstep.2.1 poolC1 poolC1given "a" ⟨6⟩ (by decide)
  · exact idle_queue_lockstep.2.2 poolC1 poolC1closed (.syncAndClose "b") (by decide)

/-- Claim C7: `take` on an inactive key first evicts one idle key iff
`|taken|+|idle| ≥ max_open_files`, awaits the key's in-flight close, reopens
the file for writing without truncation, and returns a handle whose cursor is
the stored cursor; `take` on a never-seen key creates the file (truncating)
and returns a handle with cursor 0; in both cases the key becomes taken. -/
theorem take_inactive_and_new :
    (∀ (p : FilePool) (k : Key) (c : Nat),
        FilePool.WF p → p.taken_files.length < p.max_open_files →
        alookup p.inactive_files k = some ⟨c⟩ →
        ∃ p' tr, FilePool.take p k = some (p', ⟨c⟩, tr) ∧ k ∈ p'.taken_files ∧
          k ∉ keys p'.inactive_files ∧
          ((p.open_files < p.max_open_files ∧
              tr = [.awaitClose k, .openWrite k]) ∨
           (p.max_open_files ≤ p.open_files ∧
              ∃ v, v ∈ keys p.idle_files ∧
                tr = [.syncAndClose v, .awaitClose k, .openWrite k]))) ∧
    (∀ (p : FilePool) (k : Key),
        FilePool.WF p → p.taken_files.length < p.max_open_files →
        k ∉ p.taken_files → k ∉ keys p.idle_files → k ∉ keys p.inactive_files →
        ∃ p' tr, FilePool.take p k = some (p', ⟨0⟩, tr) ∧ k ∈ p'.taken_files ∧
          ((p.open_files < p.max_open_files ∧ tr = [.createTrunc k]) ∨
           (p.max_open_files ≤ p.open_files ∧
              ∃ v, v ∈ keys p.idle_files ∧
                tr = [.syncAndClose v, .createTrunc k]))) :=
  ⟨fun _ _ _ hWF hcap hin => FilePool.take_inactive_spec hWF hcap hin,
   fun _ _ hWF hcap h1 h2 h3 => FilePool.take_new_spec hWF hcap h1 h2 h3⟩

/-- Witness for the C7 theorem at `poolC7` (inactive key "a", pool at
capacity so "b" is evicted) and at a fresh pool (new key "z"). -/
theorem take_inactive_and_new_witness :
    (FilePool.WF poolC7 ∧ poolC7.taken_files.length < poolC7.max_open_files ∧
      alookup poolC7.inactive_files "a" = some ⟨7⟩ ∧
      (∃ p' tr, FilePool.take poolC7 "a" = some (p', ⟨7⟩, tr) ∧
        "a" ∈ p'.taken_files ∧ "a" ∉ keys p'.inactive_files ∧
        ((poolC7.open_files < poolC7.max_open_files ∧
            tr = [.awaitClose "a", .openWrite "a"]) ∨
         (poolC7.max_open_files ≤ poolC7.open_files ∧
            ∃ v, v ∈ keys poolC7.idle_files ∧
              tr = [.syncAndClose v, .awaitClose "a", .openWrite "a"])))) ∧
    (∃ p' tr, FilePool.take (FilePool.new 1 "out") "z" = some (p', ⟨0⟩, tr) ∧
      "z" ∈ p'.taken_files ∧
      (((FilePool.new 1 "out").open_files < (FilePool.new 1 "out").max_open_files ∧
          tr = [.createTrunc "z"]) ∨
       ((FilePool.new 1 "out").max_open_files ≤ (FilePool.new 1 "out").open_files ∧
          ∃ v, v ∈ keys (FilePool.new 1 "out").idle_files ∧
            tr = [.syncAndClose v, .createTrunc "z"]))) :=
  have hwf : FilePool.WF poolC7 := by constructor <;> decide
  ⟨⟨hwf, by decide, by decide,
    take_inactive_and_new.1 poolC7 "a" 7 hwf (by decide) (by decide)⟩,
   take_inactive_and_new.2 (FilePool.new 1 "out") "z"
     (FilePool.WF.new 1 "out") (by decide) (by decide) (by decide) (by decide)⟩

/-! ### `src/output.rs`: the router (`OutputFiles`) -/

/-- Embedding of `output::OutputFiles`'s routing state.  `threads` holds the
per-thread pool capacities produced by `get_even_partition` (its length is the
number of worker threads); routing only uses its length. -/
structure OutputFiles where
  threads : List Nat
  msgkey_assigned : List (Key × Nat)
  last_thread_with_new_file : Nat
deriving DecidableEq, Repr

namespace OutputFiles

/-- `OutputFiles::new`: asserts `max_active_files >= num_threads` (else
panic, modelled as `none`) and partitions the capacity over the threads. -/
def new (num_threads max_active_files : Nat) : Option OutputFiles :=
  if max_active_files ≥ num_threads then
    some { threads := get_even_partition num_threads max_active_files
           msgkey_assigned := []
           last_thread_with_new_file := 0 }
  else none

/-- `OutputFiles::write_line`, restricted to its routing effect: the worker
index the record's key is routed to, and the updated router state.  A key
already assigned keeps its index; a new key gets the current
`last_thread_with_new_file`, and the cursor advances modulo the number of
threads. -/
def write_line (o : OutputFiles) (k : Key) : OutputFiles × Nat :=
  match alookup o.msgkey_assigned k with
  | some i => (o, i)
  | none =>
    let t := o.last_thread_with_new_file
    ({ o with
         msgkey_assigned := o.msgkey_assigned ++ [(k, t)]
         last_thread_with_new_file := (t + 1) % o.threads.length }, t)

/-- Routing a whole stream of keys, collecting the chosen worker indices. -/
def routeAll (o : OutputFiles) : List Key → OutputFiles × List Nat
  | [] => (o, [])
  | k :: rest =>
    match write_line o k with
    | (o1, i) =>
      match routeAll o1 rest with
      | (o2, is) => (o2, i :: is)

theorem write_line_assigned_self (o : OutputFiles) (k : Key) :
    alookup (write_line o k).1.msgkey_assigned k = some (write_line o k).2 := by
  unfold write_line
  cases hl : alookup o.msgkey_assigned k with
  | some i => exact hl
  | none =>
    simp only []
    rw [alookup_append_of_not_mem _ _ _ ((alookup_eq_none _ _).mp hl)]
    simp [alookup]

theorem write_line_stable {o : OutputFiles} {k : Key} {i : Nat} (k' : Key)
    (h : alookup o.msgkey_assigned k = some i) :
    alookup (write_line o k').1.msgkey_assigned k = some i := by
  unfold write_line
  cases hl : alookup o.msgkey_assigned k' with
  | some j => exact h
  | none =>
    simp only []
    exact alookup_append_left _ _ _ h

theorem routeAll_stable {o : OutputFiles} {k : Key} {i : Nat} (ks : List Key)
    (h : alookup o.msgkey_assigned k = some i) :
    alookup (routeAll o ks).1.msgkey_assigned k = some i := by
  induction ks generalizing o with
  | nil => simpa [routeAll] using h
  | cons k0 rest ih =>
    rcases hw : write_line o k0 with ⟨o1, r⟩
    rcases hr : routeAll o1 rest with ⟨o2, is⟩
    simp only [routeAll, hw, hr]
    have h1 : alookup o1.msgkey_assigned k = some i := by
      have := write_line_stable (o := o) (k := k) (i := i) k0 h
      rw [hw] at this
      exact this
    have := ih h1
    rw [hr] at this
    exact this

theorem routeAll_length (o : OutputFiles) (ks : List Key) :
    (routeAll o ks).2.length = ks.length := by
  induction ks generalizing o with
  | nil => simp [routeAll]
  | cons k0 rest ih =>
    rcases hw : write_line o k0 with ⟨o1, r⟩
    rcases hr : routeAll o1 rest with ⟨o2, is⟩
    simp only [routeAll, hw, hr, List.length_cons]
    have h0 := ih o1
    rw [hr] at h0
    have h2 : is.length = rest.length := by simpa using h0
    omega

theorem routeAll_get_final (o : OutputFiles) (ks : List Key) (pos : Nat) (k : Key)
    (h : ks.get? pos = some k) :
    ∃ i, (routeAll o ks).2.get? pos = some i ∧
      alookup (routeAll o ks).1.msgkey_assigned k = some i := by
  induction ks generalizing o pos with
  | nil => simp at h
  | cons k0 rest ih =>
    rcases hw : write_line o k0 with ⟨o1, r⟩
    rcases hr : routeAll o1 rest with ⟨o2, is⟩
    simp only [routeAll, hw, hr]
    cases pos with
    | zero =>
      have hk : k0 = k := by simpa using h
      subst hk
      refine ⟨r, by simp, ?_⟩
      have h1 : alookup o1.msgkey_assigned k0 = some r := by
        have := write_line_assigned_self o k0
        rw [hw] at this
        exact this
      have := routeAll_stable rest h1
      rw [hr] at this
      exact this
    | succ n =>
      have hn : rest.get? n = some k := by simpa using h
      obtain ⟨i, h1, h2⟩ := ih o1 n hn
      rw [hr] at h1 h2
      exact ⟨i, by simpa using h1, h2⟩

end OutputFiles

/-- Claim C3: the router assigns a key on first sight to the current
round-robin cursor and advances the cursor modulo the number of threads; a
key already assigned is routed to its assigned index with no state change;
an assignment, once made, survives any further routing (never reassigned);
and any two records with equal keys in a stream are routed to the same
worker index. -/
theorem router_sticky_assignment :
    (∀ (o : OutputFiles) (k : Key),
        alookup o.msgkey_assigned k = none →
        OutputFiles.write_line o k =
          ({ o with
               msgkey_assigned :=
                 o.msgkey_assigned ++ [(k, o.last_thread_with_new_file)]
               last_thread_with_new_file :=
                 (o.last_thread_with_new_file + 1) % o.threads.length },
           o.last_thread_with_new_file)) ∧
    (∀ (o : OutputFiles) (k : Key) (i : Nat),
        alookup o.msgkey_assigned k = some i →
        OutputFiles.write_line o k = (o, i)) ∧
    (∀ (o : OutputFiles) (k : Key) (i : Nat) (ks : List Key),
        alookup o.msgkey_assigned k = some i →
        alookup (OutputFiles.routeAll o ks).1.msgkey_assigned k = some i) ∧
    (∀ (o : OutputFiles) (ks : List Key) (i j : Nat),
        ks.get? i = ks.get? j →
        (OutputFiles.routeAll o ks).2.get? i = (OutputFiles.routeAll o ks).2.get? j) := by
  refine ⟨?_, ?_, ?_, ?_⟩
  · intro o k h
    unfold OutputFiles.write_line
    rw [h]
  · intro o k i h
    unfold OutputFiles.write_line
    rw [h]
  · intro o k i ks h
    exact OutputFiles.routeAll_stable ks h
  · intro o ks i j hij
    cases hki : ks.get? i with
    | none =>
      have hkj : ks.get? j = none := hij ▸ hki
      have hi : ks.length ≤ i := by
        by_contra hlt
        push_neg at hlt
        rw [List.get?_eq_get hlt] at hki
        exact absurd hki (by simp)
      have hj : ks.length ≤ j := by
        by_contra hlt
        push_neg at hlt
        rw [List.get?_eq_get hlt] at hkj
        exact absurd hkj (by simp)
      have hlen := OutputFiles.routeAll_length o ks
      rw [List.get?_eq_none.mpr (by omega), List.get?_eq_none.mpr (by omega)]
    | some k =>
      have hkj : ks.get? j = some k := hij ▸ hki
      obtain ⟨a, ha1, ha2⟩ := OutputFiles.routeAll_get_final o ks i k hki
      obtain ⟨b, hb1, hb2⟩ := OutputFiles.routeAll_get_final o ks j k hkj
      have : a = b := by
        rw [ha2] at hb2
        exact Option.some.inj hb2
      rw [ha1, hb1, this]

/-- Concrete router state with two worker threads and no assignments. -/
def routerW : OutputFiles :=
  { threads := [1, 1], msgkey_assigned := [], last_thread_with_new_file := 0 }

/-- Concrete router state where key "a" is assigned to worker 0. -/
def routerW1 : OutputFiles :=
  { threads := [1, 1], msgkey_assigned := [("a", 0)], last_thread_with_new_file := 1 }

/-- Witness for the C3 theorem: first sight of "a" on a fresh two-thread
router, a repeat lookup, stability under further routing, and equal keys in
the stream ["a", "b", "a"] routed to the same index. -/
theorem router_sticky_assignment_witness :
    (alookup routerW.msgkey_assigned "a" = none ∧
      OutputFiles.write_line routerW "a" =
        ({ routerW with
             msgkey_assigned :=
               routerW.msgkey_assigned ++ [("a", routerW.last_thread_with_new_file)]
             last_thread_with_new_file :=
               (routerW.last_thread_with_new_file + 1) % routerW.threads.length },
         routerW.last_thread_with_new_file)) ∧
    (alookup routerW1.msgkey_assigned "a" = some 0 ∧
      OutputFiles.write_line routerW1 "a" = (routerW1, 0)) ∧
    (alookup (OutputFiles.routeAll routerW1 ["b", "c"]).1.msgkey_assigned "a" =
      some 0) ∧
    ((["a", "b", "a"] : List Key).get? 0 = (["a", "b", "a"] : List Key).get? 2 ∧
      (OutputFiles.routeAll routerW ["a", "b", "a"]).2.get? 0 =
        (OutputFiles.routeAll routerW ["a", "b", "a"]).2.get? 2) :=
  ⟨⟨by decide, router_sticky_assignment.1 routerW "a" (by decide)⟩,
   ⟨by decide, router_sticky_assignment.2.1 routerW1 "a" 0 (by decide)⟩,
   router_sticky_assignment.2.2.1 routerW1 "a" 0 ["b", "c"] (by decide),
   ⟨by decide, router_sticky_assignment.2.2.2 routerW ["a", "b", "a"] 0 2 (by decide)⟩⟩

/-! ### `src/data.rs` and the chrono timestamp model

`MsgKey::from_raw` calls `chrono::DateTime::parse_from_rfc3339` and
`date_naive()`.  chrono is an external crate; it is embedded here by its
documented semantics: a `DateTime<FixedOffset>` stores the UTC instant
(`naive_utc`) plus the fixed offset, `parse_from_rfc3339` reads the written
components as the *local* date-time and subtracts the offset to obtain UTC,
and `date_naive()` returns the date of `naive_utc + offset` (the local date).
Dates are civil `(year, month, day)` triples; because `|offset| < 86400` and
the time of day lies in `[0, 86400)`, adding or subtracting the offset moves
the date by at most one calendar day, handled by `succDay`/`predDay`. -/

/-- A civil (proleptic Gregorian) calendar date. -/
structure CivilDate where
  y : Int
  m : Int
  d : Int
deriving DecidableEq, Repr

/-- Gregorian leap-year rule. -/
def isLeap (y : Int) : Bool :=
  y % 4 == 0 && (y % 100 != 0 || y % 400 == 0)

/-- Number of days of month `m` of year `y`. -/
def daysInMonth (y m : Int) : Int :=
  if m = 2 then (if isLeap y then 29 else 28)
  else if m = 4 ∨ m = 6 ∨ m = 9 ∨ m = 11 then 30
  else 31

/-- Validity of a civil date. -/
def ValidDate (c : CivilDate) : Prop :=
  1 ≤ c.m ∧ c.m ≤ 12 ∧ 1 ≤ c.d ∧ c.d ≤ daysInMonth c.y c.m

instance (c : CivilDate) : Decidable (ValidDate c) := by
  unfold ValidDate
  infer_instance

/-- The next calendar day. -/
def succDay (c : CivilDate) : CivilDate :=
  if c.d < daysInMonth c.y c.m then ⟨c.y, c.m, c.d + 1⟩
  else if c.m < 12 then ⟨c.y, c.m + 1, 1⟩
  else ⟨c.y + 1, 1, 1⟩

/-- The previous calendar day. -/
def predDay (c : CivilDate) : CivilDate :=
  if 1 < c.d then ⟨c.y, c.m, c.d - 1⟩
  else if 1 < c.m then ⟨c.y, c.m - 1, daysInMonth c.y (c.m - 1)⟩
  else ⟨c.y - 1, 12, 31⟩

/-- A naive (offset-free) date-time: a civil date plus seconds of day. -/
structure NaiveDateTime where
  date : CivilDate
  secs : Int
deriving DecidableEq, Repr

/-- Adding an amount of seconds `o` with `|o| < 86400` to a naive date-time
whose seconds-of-day lie in `[0, 86400)`: the date moves by at most one day. -/
def addSecsSmall (dt : NaiveDateTime) (o : Int) : NaiveDateTime :=
  if dt.secs + o < 0 then ⟨predDay dt.date, dt.secs + o + 86400⟩
  else if 86400 ≤ dt.secs + o then ⟨succDay dt.date, dt.secs + o - 86400⟩
  else ⟨dt.date, dt.secs + o⟩

/-- Model of chrono's `DateTime<FixedOffset>`: the UTC instant plus the
parsed offset in seconds. -/
structure DateTimeFO where
  naive_utc : NaiveDateTime
  offset : Int
deriving DecidableEq, Repr

/-- Numeric value of a decimal digit character (code points 48-57). -/
def digitVal (c : Char) : Option Int :=
  if 48 ≤ c.toNat ∧ c.toNat ≤ 57 then some ((c.toNat : Int) - 48) else none

/-- Two-digit decimal number. -/
def dig2 (a b : Char) : Option Int :=
  match digitVal a, digitVal b with
  | some x, some y => some (10 * x + y)
  | _, _ => none

/-- Four-digit decimal number. -/
def dig4 (a b c d : Char) : Option Int :=
  match dig2 a b, dig2 c d with
  | some x, some y => some (100 * x + y)
  | _, _ => none

/-- Optional fractional-seconds part of an RFC 3339 timestamp: either absent,
or a dot followed by at least one digit (the value is ignored by the date).
Returns the remaining characters. -/
def parseFrac : List Char → Option (List Char)
  | '.' :: rest =>
    if (rest.takeWhile Char.isDigit).isEmpty then none
    else some (rest.dropWhile Char.isDigit)
  | l => some l

/-- Offset part of an RFC 3339 timestamp, in seconds: `Z`/`z`, or
`±hh:mm` with `mm ≤ 59` and total magnitude below one day. -/
def parseOffset : List Char → Option Int
  | ['Z'] => some 0
  | ['z'] => some 0
  | ['+', h1, h2, ':', m1, m2] =>
    (match dig2 h1 h2, dig2 m1 m2 with
     | some h, some m =>
       if m ≤ 59 ∧ h * 3600 + m * 60 < 86400 then some (h * 3600 + m * 60) else none
     | _, _ => none)
  | ['-', h1, h2, ':', m1, m2] =>
    (match dig2 h1 h2, dig2 m1 m2 with
     | some h, some m =>
       if m ≤ 59 ∧ h * 3600 + m * 60 < 86400 then some (-(h * 3600 + m * 60)) else none
     | _, _ => none)
  | _ => none

/-- RFC 3339 parser, returning the *written* (local) civil date, the
seconds-of-day, and the offset in seconds; `none` on any malformed or
out-of-range component. -/
def parseLocalCivil (s : String) : Option (CivilDate × Int × Int) :=
  match s.data with
  | y1 :: y2 :: y3 :: y4 :: '-' :: mo1 :: mo2 :: '-' :: dy1 :: dy2 ::
      tc :: h1 :: h2 :: ':' :: mi1 :: mi2 :: ':' :: s1 :: s2 :: rest =>
    (match dig4 y1 y2 y3 y4, dig2 mo1 mo2, dig2 dy1 dy2,
           dig2 h1 h2, dig2 mi1 mi2, dig2 s1 s2 with
     | some y, some mo, some dy, some hh, some mi, some ss =>
       if (tc = 'T' ∨ tc = 't') ∧ 1 ≤ mo ∧ mo ≤ 12 ∧ 1 ≤ dy ∧
           dy ≤ daysInMonth y mo ∧ hh ≤ 23 ∧ mi ≤ 59 ∧ ss ≤ 59 then
         match parseFrac rest with
         | none => none
         | some rest1 =>
           match parseOffset rest1 with
           | none => none
           | some off => some (⟨y, mo, dy⟩, hh * 3600 + mi * 60 + ss, off)
       else none
     | _, _, _, _, _, _ => none)
  | _ => none

/-- Model of `chrono::DateTime::parse_from_rfc3339`: parse the local
components, store UTC = local − offset together with the offset. -/
def parse_from_rfc3339 (s : String) : Option DateTimeFO :=
  (parseLocalCivil s).map fun r =>
    { naive_utc := addSecsSmall ⟨r.1, r.2.1⟩ (-r.2.2), offset := r.2.2 }

/-- Model of chrono's `date_naive()`: the civil date of `naive_utc + offset`
(the date in the timestamp's own offset). -/
def date_naive (dt : DateTimeFO) : CivilDate :=
  (addSecsSmall dt.naive_utc dt.offset).date

/-- Decimal digit character of `n ∈ [0, 9]`. -/
def digitChar (n : Int) : Char :=
  Char.ofNat (48 + n.toNat)

/-- Two-digit zero-padded decimal rendering (chrono `%m`, `%d`). -/
def pad2 (n : Int) : String :=
  String.mk [digitChar (n / 10), digitChar (n % 10)]

/-- Four-digit zero-padded decimal rendering (chrono `%Y` for years
`0..9999`, the only years the four-digit parse can produce). -/
def pad4 (n : Int) : String :=
  String.mk [digitChar (n / 1000), digitChar (n / 100 % 10),
             digitChar (n / 10 % 10), digitChar (n % 10)]

/-- chrono `format("%Y-%m-%d")` on a civil date. -/
def formatDate (c : CivilDate) : String :=
  pad4 c.y ++ "-" ++ pad2 c.m ++ "-" ++ pad2 c.d

/-- Embedding of `data::MsgKeyRaw`: the three required string fields. -/
structure MsgKeyRaw where
  info_meta_service : String
  info_meta_env : String
  info_timestamp : String

/-- Embedding of `data::MsgKey`.  `PartialEq` on the Rust type compares only
the `name` string; the cached xxh3 hash (an external crate, derived purely
from `name`) does not affect equality and is elided. -/
structure MsgKey where
  name : String
deriving DecidableEq, Repr

/-- Embedding of `MsgKey::from_raw`: format the timestamp's `date_naive` as
`YYYY-MM-DD` and build `"{service}_{env}_{date}"`.  The Rust code calls
`.unwrap()` on the timestamp parse, so an unparseable timestamp panics,
modelled as `none`. -/
def MsgKey.from_raw (r : MsgKeyRaw) : Option MsgKey :=
  (parse_from_rfc3339 r.info_timestamp).map fun dt =>
    ⟨r.info_meta_service ++ "_" ++ r.info_meta_env ++ "_" ++
      formatDate (date_naive dt)⟩

/-- Embedding of `main.rs`'s `ReadError`. -/
inductive ReadError where
  | EndOfInputReached
  | InvalidLine (line : String)
deriving DecidableEq, Repr

/-- JSON values as the external `json` crate exposes them to `data.rs`
(its number representation is irrelevant here). -/
inductive Json where
  | null
  | bool (b : Bool)
  | num (n : Int)
  | str (s : String)
  | arr (elems : List Json)
  | obj (entries : List (String × Json))

/-- Indexing a `JsonValue` with a string key (the crate's `Index` impl):
a missing key or a non-object yields `Null`. -/
def Json.index (j : Json) (key : String) : Json :=
  match j with
  | .obj entries => (alookup entries key).getD Json.null
  | _ => .null

/-- The crate's `as_str()`: `Some` exactly on string values. -/
def Json.asStr : Json → Option String
  | .str s => some s
  | _ => none

/-- Embedding of `data::LineData`. -/
structure LineData where
  orig : String
  key : MsgKey

/-- Embedding of `LineData::parse`.  The external `json::parse(line)` result
is passed in as `parsed` (`none` = JSON parse error).  A parse error returns
`InvalidLine` carrying the line; a missing or non-string required field, or
an unparseable timestamp, panics via `expect`/`unwrap`, modelled as `none`;
otherwise the original line plus a newline and its key are returned. -/
def LineData.parse (parsed : Option Json) (line : String) :
    Option (Except ReadError LineData) :=
  match parsed with
  | none => some (.error (.InvalidLine line))
  | some info =>
    match ((info.index "@meta").index "service").asStr,
          ((info.index "@meta").index "env").asStr,
          (info.index "@timestamp").asStr with
    | some s, some e, some t =>
      match MsgKey.from_raw ⟨s, e, t⟩ with
      | some k => some (.ok ⟨line ++ "\n", k⟩)
      | none => none
    | _, _, _ => none

theorem CivilDate.ext3 {a b : CivilDate} (h1 : a.y = b.y) (h2 : a.m = b.m)
    (h3 : a.d = b.d) : a = b := by
  cases a
  cases b
  simp_all

theorem digitVal_bounds {c : Char} {v : Int} (h : digitVal c = some v) :
    0 ≤ v ∧ v ≤ 9 := by
  unfold digitVal at h
  split at h
  · rename_i hc
    have hv : ((c.toNat : Int) - 48) = v := Option.some.inj h
    omega
  · exact absurd h (by simp)

theorem dig2_bounds {a b : Char} {v : Int} (h : dig2 a b = some v) :
    0 ≤ v ∧ v ≤ 99 := by
  unfold dig2 at h
  split at h
  · rename_i x y hx hy
    have h1 := digitVal_bounds hx
    have h2 := digitVal_bounds hy
    have hv := Option.some.inj h
    omega
  · exact absurd h (by simp)

theorem dig4_bounds {a b c d : Char} {v : Int} (h : dig4 a b c d = some v) :
    0 ≤ v ∧ v ≤ 9999 := by
  unfold dig4 at h
  split at h
  · rename_i x y hx hy
    have h1 := dig2_bounds hx
    have h2 := dig2_bounds hy
    have hv := Option.some.inj h
    omega
  · exact absurd h (by simp)

theorem parseOffset_bounds {l : List Char} {off : Int}
    (h : parseOffset l = some off) : -86400 < off ∧ off < 86400 := by
  unfold parseOffset at h
  split at h
  · have : (0 : Int) = off := Option.some.inj h
    omega
  · have : (0 : Int) = off := Option.some.inj h
    omega
  · split at h
    · rename_i x y hx hy
      split at h
      · rename_i hc
        have h1 := dig2_bounds hx
        have h2 := dig2_bounds hy
        have := Option.some.inj h
        omega
      · exact absurd h (by simp)
    · exact absurd h (by simp)
  · split at h
    · rename_i x y hx hy
      split at h
      · rename_i hc
        have h1 := dig2_bounds hx
        have h2 := dig2_bounds hy
        have := Option.some.inj h
        omega
      · exact absurd h (by simp)
    · exact absurd h (by simp)
  · exact absurd h (by simp)

theorem parseLocalCivil_bounds {s : String} {cd : CivilDate} {tod off : Int}
    (h : parseLocalCivil s = some (cd, tod, off)) :
    ValidDate cd ∧ 0 ≤ tod ∧ tod < 86400 ∧ -86400 < off ∧ off < 86400 := by
  unfold parseLocalCivil at h
  split at h
  · split at h
    · rename_i y mo dy hh mi ss hy hmo hdy hhh hmi hss
      split at h
      · rename_i hcond
        obtain ⟨htc, hmo1, hmo2, hdy1, hdy2, hhh2, hmi2, hss2⟩ := hcond
        split at h
        · exact absurd h (by simp)
        · split at h
          · exact absurd h (by simp)
          · rename_i rest1 hfrac o hoff
            have hinj := Option.some.inj h
            have hcd : cd = ⟨y, mo, dy⟩ := (congrArg Prod.fst hinj).symm
            have htod : tod = hh * 3600 + mi * 60 + ss :=
              (congrArg (fun p => p.2.1) hinj).symm
            have hoff2 : off = o := (congrArg (fun p => p.2.2) hinj).symm
            have hb1 := dig2_bounds hhh
            have hb2 := dig2_bounds hmi
            have hb3 := dig2_bounds hss
            have hb4 := parseOffset_bounds hoff
            subst hcd
            refine ⟨⟨hmo1, hmo2, hdy1, hdy2⟩, by omega, by omega, by omega, by omega⟩
      · exact absurd h (by simp)
    · exact absurd h (by simp)
  · exact absurd h (by simp)

theorem daysInMonth_bounds (y m : Int) :
    28 ≤ daysInMonth y m ∧ daysInMonth y m ≤ 31 := by
  unfold daysInMonth
  split_ifs <;> omega

theorem daysInMonth_twelve (y : Int) : daysInMonth y 12 = 31 := by
  norm_num [daysInMonth]

theorem predDay_succDay (c : CivilDate) (h : ValidDate c) : predDay (succDay c) = c := by
  obtain ⟨cy, cm, cd⟩ := c
  have h' : 1 ≤ cm ∧ cm ≤ 12 ∧ 1 ≤ cd ∧ cd ≤ daysInMonth cy cm := h
  obtain ⟨hm1, hm2, hd1, hd2⟩ := h'
  by_cases h1 : cd < daysInMonth cy cm
  · have hs : succDay ⟨cy, cm, cd⟩ = ⟨cy, cm, cd + 1⟩ := by
      simp only [succDay]
      rw [if_pos h1]
    rw [hs]
    simp only [predDay]
    rw [if_pos (show (1 : Int) < cd + 1 by omega)]
    simp only [CivilDate.mk.injEq, true_and]
    omega
  · by_cases h2 : cm < 12
    · have hs : succDay ⟨cy, cm, cd⟩ = ⟨cy, cm + 1, 1⟩ := by
        simp only [succDay]
        rw [if_neg h1, if_pos h2]
      rw [hs]
      simp only [predDay]
      rw [if_neg (show ¬ (1 : Int) < 1 by omega),
        if_pos (show (1 : Int) < cm + 1 by omega)]
      have hmm : cm + 1 - 1 = cm := by ring
      rw [hmm]
      simp only [CivilDate.mk.injEq, true_and]
      omega
    · have hs : succDay ⟨cy, cm, cd⟩ = ⟨cy + 1, 1, 1⟩ := by
        simp only [succDay]
        rw [if_neg h1, if_neg h2]
      rw [hs]
      simp only [predDay]
      rw [if_neg (show ¬ (1 : Int) < 1 by omega),
        if_neg (show ¬ (1 : Int) < 1 by omega)]
      have hdim := daysInMonth_twelve cy
      have hm12 : cm = 12 := by omega
      rw [hm12, hdim] at hd2
      rw [hm12] at h1
      rw [hdim] at h1
      simp only [CivilDate.mk.injEq]
      refine ⟨by omega, by omega, by omega⟩

theorem succDay_predDay (c : CivilDate) (h : ValidDate c) : succDay (predDay c) = c := by
  obtain ⟨cy, cm, cd⟩ := c
  have h' : 1 ≤ cm ∧ cm ≤ 12 ∧ 1 ≤ cd ∧ cd ≤ daysInMonth cy cm := h
  obtain ⟨hm1, hm2, hd1, hd2⟩ := h'
  by_cases h1 : 1 < cd
  · have hp : predDay ⟨cy, cm, cd⟩ = ⟨cy, cm, cd - 1⟩ := by
      simp only [predDay]
      rw [if_pos h1]
    rw [hp]
    simp only [succDay]
    rw [if_pos (show cd - 1 < daysInMonth cy cm by omega)]
    simp only [CivilDate.mk.injEq, true_and]
    omega
  · by_cases h2 : 1 < cm
    · have hp : predDay ⟨cy, cm, cd⟩ = ⟨cy, cm - 1, daysInMonth cy (cm - 1)⟩ := by
        simp only [predDay]
        rw [if_neg h1, if_pos h2]
      rw [hp]
      simp only [succDay]
      rw [if_neg (show ¬ daysInMonth cy (cm - 1) < daysInMonth cy (cm - 1) by omega),
        if_pos (show cm - 1 < 12 by omega)]
      have hmm : cm - 1 + 1 = cm := by ring
      rw [hmm]
      simp only [CivilDate.mk.injEq, true_and]
      omega
    · have hp : predDay ⟨cy, cm, cd⟩ = ⟨cy - 1, 12, 31⟩ := by
        simp only [predDay]
        rw [if_neg h1, if_neg h2]
      rw [hp]
      simp only [succDay]
      have hdim := daysInMonth_twelve (cy - 1)
      rw [hdim]
      rw [if_neg (show ¬ (31 : Int) < 31 by omega),
        if_neg (show ¬ (12 : Int) < 12 by omega)]
      simp only [CivilDate.mk.injEq]
      refine ⟨by omega, by omega, by omega⟩

theorem addSecsSmall_cancel (d : CivilDate) (s o : Int) (hv : ValidDate d)
    (hs0 : 0 ≤ s) (hs1 : s < 86400) (ho0 : -86400 < o) (ho1 : o < 86400) :
    addSecsSmall (addSecsSmall ⟨d, s⟩ (-o)) o = ⟨d, s⟩ := by
  by_cases hA : s + -o < 0
  · have hinner : addSecsSmall ⟨d, s⟩ (-o) = ⟨predDay d, s + -o + 86400⟩ := by
      simp only [addSecsSmall]
      rw [if_pos hA]
    rw [hinner]
    simp only [addSecsSmall]
    rw [if_neg (show ¬ s + -o + 86400 + o < 0 by omega),
      if_pos (show 86400 ≤ s + -o + 86400 + o by omega)]
    rw [succDay_predDay d hv]
    have hx : s + -o + 86400 + o - 86400 = s := by ring
    rw [hx]
  · by_cases hB : 86400 ≤ s + -o
    · have hinner : addSecsSmall ⟨d, s⟩ (-o) = ⟨succDay d, s + -o - 86400⟩ := by
        simp only [addSecsSmall]
        rw [if_neg hA, if_pos hB]
      rw [hinner]
      simp only [addSecsSmall]
      rw [if_pos (show s + -o - 86400 + o < 0 by omega)]
      rw [predDay_succDay d hv]
      have hx : s + -o - 86400 + o + 86400 = s := by ring
      rw [hx]
    · have hinner : addSecsSmall ⟨d, s⟩ (-o) = ⟨d, s + -o⟩ := by
        simp only [addSecsSmall]
        rw [if_neg hA, if_neg hB]
      rw [hinner]
      simp only [addSecsSmall]
      rw [if_neg (show ¬ s + -o + o < 0 by omega),
        if_neg (show ¬ 86400 ≤ s + -o + o by omega)]
      have hx : s + -o + o = s := by ring
      rw [hx]

/-- Claim C5: for every record whose timestamp parses as RFC 3339, the derived
key name is `"{service}_{env}_{date}"` where the date is the *written* civil
date — the calendar date in the timestamp's own offset, not the UTC date
(chrono stores UTC internally; subtracting and re-adding the offset restores
the local date). -/
theorem shard_key_uses_local_date (svc env ts : String) (cd : CivilDate)
    (tod off : Int) (h : parseLocalCivil ts = some (cd, tod, off)) :
    MsgKey.from_raw ⟨svc, env, ts⟩ =
      some ⟨svc ++ "_" ++ env ++ "_" ++ formatDate cd⟩ := by
  obtain ⟨hv, ht0, ht1, ho0, ho1⟩ := parseLocalCivil_bounds h
  unfold MsgKey.from_raw parse_from_rfc3339
  rw [h]
  simp only [Option.map_some', MsgKey.mk.injEq, Option.some.injEq]
  unfold date_naive
  simp only []
  rw [addSecsSmall_cancel cd tod off hv ht0 ht1 ho0 ho1]

/-- Witness for the C5 theorem at the spec's own scenario S3: the timestamp
`2024-01-01T23:30:00-05:00` is keyed under the local date `2024-01-01`, not
the UTC date `2024-01-02`. -/
theorem shard_key_uses_local_date_witness :
    parseLocalCivil "2024-01-01T23:30:00-05:00" = some (⟨2024, 1, 1⟩, 84600, -18000) ∧
    MsgKey.from_raw ⟨"s", "e", "2024-01-01T23:30:00-05:00"⟩ =
      some ⟨"s" ++ "_" ++ "e" ++ "_" ++ formatDate ⟨2024, 1, 1⟩⟩ ∧
    ("s" ++ "_" ++ "e" ++ "_" ++ formatDate ⟨2024, 1, 1⟩ : String) = "s_e_2024-01-01" ∧
    ("s_e_2024-01-01" : String) ≠ "s_e_2024-01-02" :=
  ⟨by decide,
   shard_key_uses_local_date "s" "e" "2024-01-01T23:30:00-05:00"
     ⟨2024, 1, 1⟩ 84600 (-18000) (by decide),
   by decide, by decide⟩

/-- Claim C4 counterexample: for the line "\x7b\x7d" — well-formed JSON (the
empty object, as the `json` crate parses it) that lacks `@meta.service` —
`LineData::parse` panics (modelled `none`) instead of returning an
`InvalidLine` error carrying the line. -/
theorem invalid_line_counterexample :
    LineData.parse (some (Json.obj [])) "\x7b\x7d" = none ∧
    LineData.parse (some (Json.obj [])) "\x7b\x7d" ≠
      some (Except.error (ReadError.InvalidLine "\x7b\x7d")) :=
  ⟨rfl, fun h => Option.noConfusion h⟩

/-- Claim C4 (amended): `LineData::parse` returns `InvalidLine` (carrying the
offending line) exactly when the JSON parse fails; for well-formed JSON with
a missing or non-string required field, or with an unparseable timestamp, it
aborts by panic (`expect`/`unwrap`, modelled `none`) instead. -/
theorem invalid_line_exactly_for_malformed_json :
    (∀ (line : String) (parsed : Option Json),
        LineData.parse parsed line =
            some (Except.error (ReadError.InvalidLine line)) ↔
          parsed = none) ∧
    (∀ (line : String) (info : Json),
        (((info.index "@meta").index "service").asStr = none ∨
         ((info.index "@meta").index "env").asStr = none ∨
         (info.index "@timestamp").asStr = none) →
        LineData.parse (some info) line = none) ∧
    (∀ (line : String) (info : Json) (s e t : String),
        ((info.index "@meta").index "service").asStr = some s →
        ((info.index "@meta").index "env").asStr = some e →
        (info.index "@timestamp").asStr = some t →
        MsgKey.from_raw ⟨s, e, t⟩ = none →
        LineData.parse (some info) line = none) := by
  refine ⟨?_, ?_, ?_⟩
  · intro line parsed
    constructor
    · intro h
      cases parsed with
      | none => rfl
      | some info =>
        exfalso
        simp only [LineData.parse] at h
        cases hs : ((info.index "@meta").index "service").asStr with
        | none => simp [hs] at h
        | some s =>
          cases he : ((info.index "@meta").index "env").asStr with
          | none => simp [hs, he] at h
          | some e =>
            cases ht : (info.index "@timestamp").asStr with
            | none => simp [hs, he, ht] at h
            | some t =>
              cases hr : MsgKey.from_raw ⟨s, e, t⟩ with
              | none => simp [hs, he, ht, hr] at h
              | some k => simp [hs, he, ht, hr] at h
    · intro h
      subst h
      rfl
  · intro line info hmiss
    cases hs : ((info.index "@meta").index "service").asStr with
    | none => simp [LineData.parse, hs]
    | some s =>
      cases he : ((info.index "@meta").index "env").asStr with
      | none => simp [LineData.parse, hs, he]
      | some e =>
        cases ht : (info.index "@timestamp").asStr with
        | none => simp [LineData.parse, hs, he, ht]
        | some t =>
          exfalso
          rcases hmiss with hm | hm | hm <;> simp_all
  · intro line info s e t hs he ht hraw
    simp [LineData.parse, hs, he, ht, hraw]

/-- Concrete JSON object with all three fields present but a timestamp that
does not parse as RFC 3339. -/
def jsonBadTs : Json :=
  Json.obj [("@meta", Json.obj [("service", Json.str "s"), ("env", Json.str "e")]),
            ("@timestamp", Json.str "not-a-timestamp")]

/-- Witness for the amended C4 theorem: a failed JSON parse yields
`InvalidLine`; the empty object (missing `@meta.service`) and a bad
timestamp both panic. -/
theorem invalid_line_exactly_for_malformed_json_witness :
    (LineData.parse none "x" = some (Except.error (ReadError.InvalidLine "x")) ↔
      (none : Option Json) = none) ∧
    LineData.parse (some (Json.obj [])) "y" = none ∧
    LineData.parse (some jsonBadTs) "z" = none :=
  ⟨invalid_line_exactly_for_malformed_json.1 "x" none,
   invalid_line_exactly_for_malformed_json.2.1 "y" (Json.obj []) (Or.inl rfl),
   invalid_line_exactly_for_malformed_json.2.2 "z" jsonBadTs "s" "e"
     "not-a-timestamp" rfl rfl rfl (by decide)⟩

/-! ### `src/input.rs`: line splitting over the decompressed byte stream -/

/-- The conversion `b as char` the Rust loop applies to every decompressed
byte: the character with the same code point (Latin-1 style), never a UTF-8
decode. -/
def byteToChar (b : Nat) : Char :=
  Char.ofNat b

/-- The line-splitting loop of `read_input` (`input.rs:75-114`): bytes from
the decoder are taken in order; `b'\n'` sends the accumulated line, any other
byte is pushed as `b as char`; at end of input a non-empty trailing line is
sent.  The chunking and channel plumbing preserve byte order, so the loop is
equivalent to this single pass over the whole decompressed byte list. -/
def readLinesGo : List Nat → List Char → List String
  | [], acc => if acc.length > 0 then [String.mk acc] else []
  | b :: rest, acc =>
    if b = 10 then String.mk acc :: readLinesGo rest []
    else readLinesGo rest (acc ++ [byteToChar b])

/-- Embedding of `input::read_input`, restricted to its observable output:
the lines sent over the channel, given the decompressed byte stream. -/
def read_input (bs : List Nat) : List String :=
  readLinesGo bs []

/-- Specification-side splitting of a byte stream at newline bytes: `n`
separators yield `n + 1` segments. -/
def split10 : List Nat → List (List Nat)
  | [] => [[]]
  | b :: r =>
    if b = 10 then [] :: split10 r
    else
      match split10 r with
      | [] => [[b]]
      | p :: ps => (b :: p) :: ps

/-- Specification-side rendering of the segments: each byte becomes the char
with equal code point, and a trailing empty segment yields no line. -/
def finalize : List (List Nat) → List String
  | [] => []
  | [p] => if p.isEmpty then [] else [String.mk (p.map byteToChar)]
  | p :: ps => String.mk (p.map byteToChar) :: finalize ps

/-- Prepending bytes onto the first segment. -/
def consHead (x : List Nat) : List (List Nat) → List (List Nat)
  | [] => []
  | p :: ps => (x ++ p) :: ps

/-- A standard UTF-8 validity checker (used only to state claim C9; the
Rust code contains no such check). -/
def utf8Valid : List Nat → Bool
  | [] => true
  | b :: rest =>
    if b ≤ 0x7F then utf8Valid rest
    else if 0xC2 ≤ b ∧ b ≤ 0xDF then
      match rest with
      | c :: r => if 0x80 ≤ c ∧ c ≤ 0xBF then utf8Valid r else false
      | [] => false
    else if b = 0xE0 then
      match rest with
      | c :: d :: r =>
        if (0xA0 ≤ c ∧ c ≤ 0xBF) ∧ (0x80 ≤ d ∧ d ≤ 0xBF) then utf8Valid r else false
      | _ => false
    else if (0xE1 ≤ b ∧ b ≤ 0xEC) ∨ b = 0xEE ∨ b = 0xEF then
      match rest with
      | c :: d :: r =>
        if (0x80 ≤ c ∧ c ≤ 0xBF) ∧ (0x80 ≤ d ∧ d ≤ 0xBF) then utf8Valid r else false
      | _ => false
    else if b = 0xED then
      match rest with
      | c :: d :: r =>
        if (0x80 ≤ c ∧ c ≤ 0x9F) ∧ (0x80 ≤ d ∧ d ≤ 0xBF) then utf8Valid r else false
      | _ => false
    else if b = 0xF0 then
      match rest with
      | c :: d :: e :: r =>
        if (0x90 ≤ c ∧ c ≤ 0xBF) ∧ (0x80 ≤ d ∧ d ≤ 0xBF) ∧ (0x80 ≤ e ∧ e ≤ 0xBF) then
          utf8Valid r
        else false
      | _ => false
    else if 0xF1 ≤ b ∧ b ≤ 0xF3 then
      match rest with
      | c :: d :: e :: r =>
        if (0x80 ≤ c ∧ c ≤ 0xBF) ∧ (0x80 ≤ d ∧ d ≤ 0xBF) ∧ (0x80 ≤ e ∧ e ≤ 0xBF) then
          utf8Valid r
        else false
      | _ => false
    else if b = 0xF4 then
      match rest with
      | c :: d :: e :: r =>
        if (0x80 ≤ c ∧ c ≤ 0x8F) ∧ (0x80 ≤ d ∧ d ≤ 0xBF) ∧ (0x80 ≤ e ∧ e ≤ 0xBF) then
          utf8Valid r
        else false
      | _ => false
    else false

theorem split10_ne_nil : ∀ bs : List Nat, split10 bs ≠ [] := by
  intro bs
  cases bs with
  | nil => simp [split10]
  | cons b r =>
    by_cases hb : b = 10
    · simp [split10, hb]
    · simp only [split10, if_neg hb]
      cases split10 r <;> simp

theorem readLinesGo_eq : ∀ (bs : List Nat) (acc : List Nat),
    readLinesGo bs (acc.map byteToChar) = finalize (consHead acc (split10 bs)) := by
  intro bs
  induction bs with
  | nil =>
    intro acc
    simp only [readLinesGo, split10, consHead, List.append_nil]
    cases acc with
    | nil => simp [finalize]
    | cons a t => simp [finalize]
  | cons b rest ih =>
    intro acc
    by_cases hb : b = 10
    · subst hb
      simp only [readLinesGo, if_pos rfl, split10, consHead, List.append_nil]
      have h1 : readLinesGo rest [] = finalize (split10 rest) := by
        have := ih []
        simp only [List.map_nil, consHead] at this
        cases hs : split10 rest with
        | nil => exact absurd hs (split10_ne_nil rest)
        | cons p ps =>
          rw [hs] at this
          simpa using this
      rw [h1]
      cases hs : split10 rest with
      | nil => exact absurd hs (split10_ne_nil rest)
      | cons p ps => simp [finalize]
    · simp only [readLinesGo, if_neg hb, split10]
      have h2 : acc.map byteToChar ++ [byteToChar b] = (acc ++ [b]).map byteToChar := by
        simp
      rw [h2, ih (acc ++ [b])]
      cases hs : split10 rest with
      | nil => exact absurd hs (split10_ne_nil rest)
      | cons p ps =>
        simp only [consHead, List.append_assoc, List.singleton_append]

/-- Claim C9 counterexample: the decompressed bytes `[0xFF, '\n']` are not
valid UTF-8, yet `read_input` raises no error and yields the line whose
single character is the code point 0xFF — the invalid byte is passed
through, not rejected. -/
theorem invalid_utf8_counterexample :
    utf8Valid [0xFF] = false ∧
    read_input [0xFF, 10] = [String.mk [Char.ofNat 0xFF]] := by
  constructor
  · decide
  · decide

/-- Claim C9 (amended): the line source performs no UTF-8 validation at all:
for every decompressed byte stream it yields exactly the newline-separated
segments (any trailing empty segment dropped), each byte rendered as the
character with the same code point (`b as char`), and it never fails on
non-UTF-8 bytes (the function is total and error-free by construction). -/
theorem read_input_latin1 (bs : List Nat) :
    read_input bs = finalize (split10 bs) := by
  unfold read_input
  have := readLinesGo_eq bs []
  simp only [List.map_nil] at this
  rw [this]
  cases hs : split10 bs with
  | nil => exact absurd hs (split10_ne_nil bs)
  | cons p ps => simp [consHead]

/-! ### `FilePoolEntry::write_all` (`file_pool.rs:18-30`) -/

/-- Observable outcome of the `write_all` loop. -/
inductive WRes where
  /-- The loop broke with the buffer empty: `Ok(())`, final cursor given. -/
  | done (cursor : Nat)
  /-- A `write_at` returned `Err`, propagated by `?`. -/
  | ioError
  /-- `split_off(written)` with `written` beyond the buffer length panics. -/
  | panicked
  /-- The supplied sequence of `write_at` results is exhausted while the
  buffer is still non-empty: the loop is still running with this remaining
  length and cursor. -/
  | pending (len cursor : Nat)
deriving DecidableEq, Repr

/-- Embedding of `FilePoolEntry::write_all`.  The buffer is abstracted by its
length `len`; `oracle` lists the results of the successive
`file.write_at(to_write, cursor)` calls (`Except.ok w` = `Ok(w)` bytes
written, `Except.error ()` = I/O error). -/
def write_all : List (Except Unit Nat) → Nat → Nat → WRes
  | _, 0, c => WRes.done c
  | [], len, c => WRes.pending len c
  | Except.error _ :: _, _, _ => WRes.ioError
  | Except.ok w :: rest, len, c =>
    if w ≤ len then write_all rest (len - w) (c + w) else WRes.panicked

/-- Claim C8: (a) `write_all` returns successfully only once the entire
buffer has been written, the final cursor being the initial cursor plus the
buffer length; (b) while the loop runs the cursor is monotone non-decreasing
and always equals the initial cursor plus the bytes written so far; (c) a
`write_at` that returns zero bytes leaves the loop state unchanged — any
number of zero-byte writes is retried forever at the same offset, and the
loop neither fails nor terminates (the code has no zero-byte check). -/
theorem write_all_spec :
    (∀ (oracle : List (Except Unit Nat)) (len c c' : Nat),
        write_all oracle len c = WRes.done c' → c' = c + len) ∧
    (∀ (oracle : List (Except Unit Nat)) (len len' c c' : Nat),
        write_all oracle len c = WRes.pending len' c' →
        len' ≤ len ∧ c ≤ c' ∧ c' + len' = c + len) ∧
    (∀ (k len c : Nat), len ≠ 0 →
        write_all (List.replicate k (Except.ok 0)) len c = WRes.pending len c) := by
  refine ⟨?_, ?_, ?_⟩
  · intro oracle
    induction oracle with
    | nil =>
      intro len c c' h
      cases len with
      | zero =>
        have : WRes.done c = WRes.done c' := h
        have := WRes.done.inj this
        omega
      | succ n => exact absurd h (by simp [write_all])
    | cons e rest ih =>
      intro len c c' h
      cases e with
      | error u =>
        cases len with
        | zero =>
          have : WRes.done c = WRes.done c' := h
          have := WRes.done.inj this
          omega
        | succ n => exact absurd h (by simp [write_all])
      | ok w =>
        cases len with
        | zero =>
          have : WRes.done c = WRes.done c' := h
          have := WRes.done.inj this
          omega
        | succ n =>
          simp only [write_all] at h
          split at h
          · rename_i hw
            have := ih (n + 1 - w) (c + w) c' h
            omega
          · exact absurd h (by simp)
  · intro oracle
    induction oracle with
    | nil =>
      intro len len' c c' h
      cases len with
      | zero => exact absurd h (by simp [write_all])
      | succ n =>
        have : WRes.pending (n + 1) c = WRes.pending len' c' := h
        have h1 := WRes.pending.inj this
        omega
    | cons e rest ih =>
      intro len len' c c' h
      cases e with
      | error u =>
        cases len with
        | zero => exact absurd h (by simp [write_all])
        | succ n => exact absurd h (by simp [write_all])
      | ok w =>
        cases len with
        | zero => exact absurd h (by simp [write_all])
        | succ n =>
          simp only [write_all] at h
          split at h
          · rename_i hw
            have := ih (n + 1 - w) len' (c + w) c' h
            omega
          · exact absurd h (by simp)
  · intro k
    induction k with
    | zero =>
      intro len c hlen
      cases len with
      | zero => exact absurd rfl hlen
      | succ n => rfl
    | succ k ih =>
      intro len c hlen
      cases len with
      | zero => exact absurd rfl hlen
      | succ n =>
        show write_all (Except.ok 0 :: List.replicate k (Except.ok 0)) (n + 1) c =
          WRes.pending (n + 1) c
        simp only [write_all, if_pos (Nat.zero_le (n + 1))]
        exact ih (n + 1) c hlen

/-- Witness for the C8 theorem: a run of two successful partial writes, an
exhausted oracle mid-buffer, and four zero-byte writes that leave the loop
state unchanged. -/
theorem write_all_spec_witness :
    (write_all [Except.ok 2, Except.ok 3] 5 10 = WRes.done 15 ∧ (15 : Nat) = 10 + 5) ∧
    (write_all [Except.ok 2] 5 10 = WRes.pending 3 12 ∧
      (3 : Nat) ≤ 5 ∧ (10 : Nat) ≤ 12 ∧ (12 : Nat) + 3 = 10 + 5) ∧
    ((7 : Nat) ≠ 0 ∧
      write_all (List.replicate 4 (Except.ok 0)) 7 2 = WRes.pending 7 2) :=
  ⟨⟨by decide, write_all_spec.1 [Except.ok 2, Except.ok 3] 5 10 15 (by decide)⟩,
   ⟨by decide, write_all_spec.2.1 [Except.ok 2] 5 3 10 12 (by decide)⟩,
   ⟨by decide, write_all_spec.2.2 4 7 2 (by decide)⟩⟩

/-- Claim C10: for `num_workers ≥ 1` and `max_active_files ≥ num_workers`,
`OutputFiles::new` partitions `max_active_files` into exactly `num_workers`
per-worker capacities summing to `max_active_files`, any two differing by at
most 1, each at least 1; `max_active_files < num_workers` is rejected
(assertion failure, modelled `none`). -/
theorem engine_partition_spec :
    (∀ n m : Nat, 1 ≤ n → n ≤ m →
      ∃ o, OutputFiles.new n m = some o ∧
        o.threads.length = n ∧
        o.threads.sum = m ∧
        (∀ a ∈ o.threads, 1 ≤ a) ∧
        (∀ a ∈ o.threads, ∀ b ∈ o.threads, a ≤ b + 1)) ∧
    (∀ n m : Nat, m < n → OutputFiles.new n m = none) := by
  constructor
  · intro n m h1 h2
    refine ⟨{ threads := get_even_partition n m, msgkey_assigned := [],
              last_thread_with_new_file := 0 }, ?_, ?_, ?_, ?_, ?_⟩
    · unfold OutputFiles.new
      rw [if_pos (by omega)]
    · exact get_even_partition_length n m
    · exact get_even_partition_sum n m h1
    · intro a ha
      exact get_even_partition_pos n m h1 h2 ha
    · intro a ha b hb
      rcases get_even_partition_mem n m ha with h | h <;>
        rcases get_even_partition_mem n m hb with h' | h' <;> omega
  · intro n m h
    unfold OutputFiles.new
    rw [if_neg (by omega)]

/-- Witness for the C10 theorem at `num_workers = 3`: accepted with partition
of 8, rejected for `max_active_files = 2`. -/
theorem engine_partition_spec_witness :
    ((1 : Nat) ≤ 3 ∧ (3 : Nat) ≤ 8 ∧
      (∃ o, OutputFiles.new 3 8 = some o ∧
        o.threads.length = 3 ∧
        o.threads.sum = 8 ∧
        (∀ a ∈ o.threads, 1 ≤ a) ∧
        (∀ a ∈ o.threads, ∀ b ∈ o.threads, a ≤ b + 1))) ∧
    ((2 : Nat) < 3 ∧ OutputFiles.new 3 2 = none) :=
  ⟨⟨by decide, by decide, engine_partition_spec.1 3 8 (by decide) (by decide)⟩,
   ⟨by decide, engine_partition_spec.2 3 2 (by decide)⟩⟩

end LogSplitter
